import Mathlib

/-!
# am::tsq::ts_queue

A shallow embedding of `include/ts_queue.hpp`: the adaptor `ts_queue<T, Container>`
(a container `c` and a `std::mutex lock` per instance), its member functions and the six
free comparison operators, together with the two locking shortcuts `LOCK_GUARD` and
`LOCK_GUARDS`.

Instances live in a memory indexed by address, so that two references may or may not alias.
Every call is a function from the memory before the call to its outcome; a call made by thread
`t` either returns with a value and the memory afterwards, or ends in one of three ways that
return nothing: undefined behaviour of the backing store, locking a mutex the caller already
owns, or waiting for a mutex another thread owns.
-/

namespace am.tsq

/-! ## Memory, mutexes and outcomes -/

/-- Identity of a thread. -/
abbrev Tid := Nat

/-- Address of a `ts_queue` instance: two references alias exactly when their addresses agree. -/
abbrev Addr := Nat

/-- Ghost trace of what a call does to the guards and to the guarded storage. -/
inductive Event where
  /-- Thread `t` acquired the mutex of the instance at `a`. -/
  | acquire (t : Tid) (a : Addr)
  /-- Thread `t` released the mutex of the instance at `a`. -/
  | release (t : Tid) (a : Addr)
  /-- Thread `t` read or wrote the container of the instance at `a`. -/
  | access (t : Tid) (a : Addr)
  deriving DecidableEq, Repr

/-- The backing store `Container`: an ordered sequence, the head of the list being the front of
the queue (the next element `pop` removes) and the last element its back. -/
abbrev Container (T : Type) := List T

/-- The data members of `ts_queue<T, Container>` (lines 39-40): `Container c` and
`mutable std::mutex lock`. A `std::mutex` is owned by at most one thread; `none` is a free
mutex. -/
structure ts_queue (T : Type) where
  c : Container T
  lock : Option Tid
  deriving DecidableEq, Repr

/-- The memory: the instance stored at every address, and the ghost trace so far. -/
structure Mem (T : Type) where
  obj : Addr → ts_queue T
  log : List Event

/-- How a call ends. -/
inductive Outcome (α : Type) where
  /-- The call returns. -/
  | ok (a : α)
  /-- Undefined behaviour: `front`, `back` or `pop` of an empty backing store, or unlocking a
  mutex the caller does not own. -/
  | undefined
  /-- The caller locks a `std::mutex` it already owns. The mutex is not recursive: the behaviour
  is undefined, in practice the thread waits for itself for ever. Nothing is returned. -/
  | relock
  /-- The mutex is owned by another thread: the caller waits. -/
  | blocked
  deriving DecidableEq, Repr

/-- A call: from the memory before it to its outcome, with the memory after it when it
returns. -/
def Call (T α : Type) : Type := Mem T → Outcome (α × Mem T)

/-- Return a value, leaving the memory as it is. -/
def Call.pure {T α : Type} (a : α) : Call T α := fun m => Outcome.ok (a, m)

/-- Sequencing of two calls: the second runs only when the first returns. -/
def Call.bind {T α β : Type} (x : Call T α) (f : α → Call T β) : Call T β := fun m =>
  match x m with
  | Outcome.ok (a, m1) => f a m1
  | Outcome.undefined => Outcome.undefined
  | Outcome.relock => Outcome.relock
  | Outcome.blocked => Outcome.blocked

instance instMonadCall {T : Type} : Monad (Call T) where
  pure := Call.pure
  bind := Call.bind

/-- The value a call returned, if it returned. -/
def Outcome.value {α σ : Type} : Outcome (α × σ) → Option α
  | Outcome.ok (a, _) => some a
  | _ => none

/-- The memory a call left, if it returned. -/
def Outcome.mem {α σ : Type} : Outcome (α × σ) → Option σ
  | Outcome.ok (_, m) => some m
  | _ => none

/-- Replace the instance stored at `a`. -/
def Mem.store {T : Type} (m : Mem T) (a : Addr) (q : ts_queue T) : Mem T :=
  { m with obj := fun b => if b = a then q else m.obj b }

/-- Append an event to the ghost trace. -/
def Mem.emit {T : Type} (m : Mem T) (e : Event) : Mem T :=
  { m with log := m.log ++ [e] }

/-- The call `std::mutex::lock` on the mutex of the instance at `a`, by thread `t`. -/
def mutex_lock {T : Type} (t : Tid) (a : Addr) : Call T Unit := fun m =>
  match (m.obj a).lock with
  | none =>
      Outcome.ok ((), (m.store a { m.obj a with lock := some t }).emit (Event.acquire t a))
  | some owner => if owner = t then Outcome.relock else Outcome.blocked

/-- The call `std::mutex::unlock` on the mutex of the instance at `a`, by thread `t`: the
caller must own the mutex. -/
def mutex_unlock {T : Type} (t : Tid) (a : Addr) : Call T Unit := fun m =>
  if (m.obj a).lock = some t then
    Outcome.ok ((), (m.store a { m.obj a with lock := none }).emit (Event.release t a))
  else Outcome.undefined

/-- The shortcut `LOCK_GUARD(m)` (line 11) followed by the rest of the function body: a
`std::lock_guard` locks `m` where it is declared and unlocks it when the scope is left, after
the returned value has been computed. -/
def LOCK_GUARD {T α : Type} (t : Tid) (m : Addr) (body : Call T α) : Call T α := do
  mutex_lock t m
  let r ← body
  mutex_unlock t m
  pure r

/-- The shortcut `LOCK_GUARDS(m1, m2)` (lines 12-13) followed by the rest of the function body:
`lg1` locks `m1`, then `lg2` locks `m2`; leaving the scope destroys them in reverse order. -/
def LOCK_GUARDS {T α : Type} (t : Tid) (m1 m2 : Addr) (body : Call T α) : Call T α :=
  LOCK_GUARD t m1 (LOCK_GUARD t m2 body)

/-- Read the member `c` of the instance at `a`. -/
def read_c {T : Type} (t : Tid) (a : Addr) : Call T (Container T) := fun m =>
  Outcome.ok ((m.obj a).c, m.emit (Event.access t a))

/-- Write the member `c` of the instance at `a`. -/
def write_c {T : Type} (t : Tid) (a : Addr) (c : Container T) : Call T Unit := fun m =>
  Outcome.ok ((), (m.store a { m.obj a with c := c }).emit (Event.access t a))

/-- Undefined behaviour of the backing store. -/
def undefined_behaviour {T α : Type} : Call T α := fun _ => Outcome.undefined

/-! ## The backing store

The operations the class comment (lines 24-27) requires of `Container`: `front`, `back`,
`empty`, `size`, `push`, `emplace_back` and `pop`, and the two comparisons the free operators
use. The sequence never holds more elements than `size_type` can count, so `size` is the length
of the list. -/

/-- `c.empty()`. -/
def Container.empty {T : Type} (c : Container T) : Bool := List.isEmpty c

/-- `c.size()`. -/
def Container.size {T : Type} (c : Container T) : Nat := List.length c

/-- `c.front()`: the first element; undefined (`none`) on an empty store. -/
def Container.front {T : Type} (c : Container T) : Option T := List.head? c

/-- `c.back()`: the last element; undefined (`none`) on an empty store. -/
def Container.back {T : Type} (c : Container T) : Option T := List.getLast? c

/-- `c.push(x)`: append `x` at the back. -/
def Container.push {T : Type} (c : Container T) (x : T) : Container T := c ++ [x]

/-- `c.emplace_back(args...)`: construct an element from `args` with the constructor `mk` of
`T` and append it at the back. -/
def Container.emplace_back {T Args : Type} (c : Container T) (mk : Args → T) (args : Args) :
    Container T := c ++ [mk args]

/-- `c.pop()`: remove the first element; undefined (`none`) on an empty store. -/
def Container.pop {T : Type} (c : Container T) : Option (Container T) :=
  match c with
  | [] => none
  | _ :: rest => some rest

/-- `std::equal` over two ranges of the same length, with the element type's `==`. -/
def std_equal {T : Type} [BEq T] : List T → List T → Bool
  | a :: as, b :: bs => (a == b) && std_equal as bs
  | _, _ => true

/-- `x.c == y.c` of the backing store: equal sizes and `std::equal` elements. -/
def Container.eq {T : Type} [BEq T] (x y : Container T) : Bool :=
  (Container.size x == Container.size y) && std_equal x y

/-- `std::lexicographical_compare` with the element type's `<`, given as `lt`: walk both
ranges; at the first position where one element is less than the other that comparison
decides; when a range ends, the first is less exactly when it ended and the second did not. -/
def lexicographical_compare {T : Type} (lt : T → T → Bool) : List T → List T → Bool
  | a :: as, b :: bs =>
      if lt a b then true
      else if lt b a then false
      else lexicographical_compare lt as bs
  | [], _ :: _ => true
  | _, [] => false

/-- `x.c < y.c` of the backing store. -/
def Container.lt {T : Type} (lt : T → T → Bool) (x y : Container T) : Bool :=
  lexicographical_compare lt x y

/-! ## Constructors (lines 43-51)

A constructor builds the instance at the address `self`; its mutex is a fresh, free one. No
constructor locks anything. -/

/-- The default constructor `ts_queue() : c() {}` (line 43). -/
def ts_queue.ctor {T : Type} (self : Addr) : Call T Unit := fun m =>
  Outcome.ok ((), m.store self { c := [], lock := none })

/-- The constructors from a backing sequence, `ts_queue(const Container& oc) : c(oc) {}`
(line 45) and `ts_queue(Container&& oc) : c(std::move(oc)) {}` (line 47): the new queue holds
the elements of `oc`. The sequence `oc` is the caller's own object, not a queue. -/
def ts_queue.ctor_container {T : Type} (self : Addr) (oc : Container T) : Call T Unit :=
  fun m => Outcome.ok ((), m.store self { c := oc, lock := none })

/-- The copy constructor `ts_queue(const ts_queue& q) : c(q.c) {}` (line 49): it reads `q.c`
without locking `q.lock`. -/
def ts_queue.ctor_copy {T : Type} (t : Tid) (self q : Addr) : Call T Unit := do
  let qc ← read_c t q
  fun m => Outcome.ok ((), m.store self { c := qc, lock := none })

/-- The move constructor `ts_queue(ts_queue&& q) : c(std::move(q.c)) {}` (line 51): it reads
and writes `q.c` without locking `q.lock`. The moved-from store is left valid but unspecified:
it holds `residue`. -/
def ts_queue.ctor_move {T : Type} (t : Tid) (self q : Addr) (residue : Container T) :
    Call T Unit := do
  let qc ← read_c t q
  write_c t q residue
  fun m => Outcome.ok ((), m.store self { c := qc, lock := none })

/-! ## Member functions (lines 53-99)

A returned reference is modelled by the element it refers to when the call returns. -/

/-- The member `bool empty() const { LOCK_GUARD(lock); return c.empty(); }` (line 54). -/
def ts_queue.empty {T : Type} (t : Tid) (self : Addr) : Call T Bool :=
  LOCK_GUARD t self do
    let c ← read_c t self
    pure (Container.empty c)

/-- The member `size_type size() const { LOCK_GUARD(lock); return c.size(); }` (line 57). -/
def ts_queue.size {T : Type} (t : Tid) (self : Addr) : Call T Nat :=
  LOCK_GUARD t self do
    let c ← read_c t self
    pure (Container.size c)

/-- The members `front()` (lines 60 and 63): `LOCK_GUARD(lock); return c.front();`. -/
def ts_queue.front {T : Type} (t : Tid) (self : Addr) : Call T T :=
  LOCK_GUARD t self do
    let c ← read_c t self
    match Container.front c with
    | some x => pure x
    | none => undefined_behaviour

/-- The members `back()` (lines 66 and 69): `LOCK_GUARD(lock); return c.back();`. -/
def ts_queue.back {T : Type} (t : Tid) (self : Addr) : Call T T :=
  LOCK_GUARD t self do
    let c ← read_c t self
    match Container.back c with
    | some x => pure x
    | none => undefined_behaviour

/-- The members `push` (lines 76 and 78): `LOCK_GUARD(lock); c.push(x);`, by copy or by
move of `x`. -/
def ts_queue.push {T : Type} (t : Tid) (self : Addr) (x : T) : Call T Unit :=
  LOCK_GUARD t self do
    let c ← read_c t self
    write_c t self (Container.push c x)

/-- The member `emplace` (lines 87-91): `LOCK_GUARD(lock); c.emplace_back(args...);`, where
`mk` is the constructor of `T` that takes `args`. -/
def ts_queue.emplace {T Args : Type} (t : Tid) (self : Addr) (mk : Args → T) (args : Args) :
    Call T Unit :=
  LOCK_GUARD t self do
    let c ← read_c t self
    write_c t self (Container.emplace_back c mk args)

/-- The member `void pop() { LOCK_GUARD(lock); c.pop(); }` (line 99). -/
def ts_queue.pop {T : Type} (t : Tid) (self : Addr) : Call T Unit :=
  LOCK_GUARD t self do
    let c ← read_c t self
    match Container.pop c with
    | some rest => write_c t self rest
    | none => undefined_behaviour

/-! ## Comparison operators (lines 111-158)

The six comparison operators are free function templates declared after the class. The
definitions of this section embed their bodies as written, run with access to the data members
`lock` and `c` of the operands; whether such a function, which is no member of the class, may
name those members is settled separately, by `comparison_for` below. -/

/-- The body of the free `operator==` (lines 111-115):
`LOCK_GUARDS(x.lock, y.lock); return x.c == y.c;`, run with access to `lock` and `c`. -/
def operator_eq {T : Type} [BEq T] (t : Tid) (x y : Addr) : Call T Bool :=
  LOCK_GUARDS t x y do
    let xc ← read_c t x
    let yc ← read_c t y
    pure (Container.eq xc yc)

/-- The body of the free `operator<` (lines 126-130):
`LOCK_GUARDS(x.lock, y.lock); return x.c < y.c;`, run with access to `lock` and `c`, with `lt`
the `<` of the element type. -/
def operator_lt {T : Type} (lt : T → T → Bool) (t : Tid) (x y : Addr) : Call T Bool :=
  LOCK_GUARDS t x y do
    let xc ← read_c t x
    let yc ← read_c t y
    pure (Container.lt lt xc yc)

/-- The body of the free `operator!=` (lines 132-137):
`LOCK_GUARDS(x.lock, y.lock); return !(x == y);`, run with access to `lock`. The call `x == y`
is made while both guards are held. -/
def operator_ne {T : Type} [BEq T] (t : Tid) (x y : Addr) : Call T Bool :=
  LOCK_GUARDS t x y do
    let r ← operator_eq t x y
    pure (!r)

/-- The body of the free `operator>` (lines 139-144):
`LOCK_GUARDS(x.lock, y.lock); return y < x;`, run with access to `lock`. -/
def operator_gt {T : Type} (lt : T → T → Bool) (t : Tid) (x y : Addr) : Call T Bool :=
  LOCK_GUARDS t x y do
    let r ← operator_lt lt t y x
    pure r

/-- The body of the free `operator<=` (lines 146-151):
`LOCK_GUARDS(x.lock, y.lock); return !(y < x);`, run with access to `lock`. -/
def operator_le {T : Type} (lt : T → T → Bool) (t : Tid) (x y : Addr) : Call T Bool :=
  LOCK_GUARDS t x y do
    let r ← operator_lt lt t y x
    pure (!r)

/-- The body of the free `operator>=` (lines 153-158):
`LOCK_GUARDS(x.lock, y.lock); return !(x < y);`, run with access to `lock`. -/
def operator_ge {T : Type} (lt : T → T → Bool) (t : Tid) (x y : Addr) : Call T Bool :=
  LOCK_GUARDS t x y do
    let r ← operator_lt lt t x y
    pure (!r)

/-! ## Access of the comparison operators to the data members

A function that is neither a member nor a friend of a class may not name a private member of
it: a call of a function template whose body does is ill-formed, and the program that makes
the call does not compile. -/

/-- The data members of `ts_queue` (lines 39-40). -/
inductive DataMember where
  | c
  | lock
  deriving DecidableEq, Repr

/-- The six comparison operators (lines 111-158), each a function template at namespace scope,
declared after the closing brace of the class (line 100). -/
inductive Comparison where
  | eq
  | ne
  | lt
  | gt
  | le
  | ge
  deriving DecidableEq, Repr

/-- Whether the data member is private: `Container c` and `mutable std::mutex lock` are both
declared under the label `private:` (lines 38-40). -/
def ts_queue.is_private : DataMember → Bool
  | DataMember.c => true
  | DataMember.lock => true

/-- Whether the class declares the operator a friend: the class body (lines 30-100) holds no
`friend` declaration at all. -/
def ts_queue.befriends : Comparison → Bool
  | _ => false

/-- The data members of the operands that the body of the operator names: `==` and `<` name
`x.lock`, `y.lock`, `x.c` and `y.c` (lines 113-114 and 128-129), the four others name `x.lock`
and `y.lock` (lines 135, 142, 149, 156). -/
def Comparison.names : Comparison → List DataMember
  | Comparison.eq => [DataMember.lock, DataMember.c]
  | Comparison.lt => [DataMember.lock, DataMember.c]
  | Comparison.ne => [DataMember.lock]
  | Comparison.gt => [DataMember.lock]
  | Comparison.le => [DataMember.lock]
  | Comparison.ge => [DataMember.lock]

/-- The comparison operator `op` instantiated for a class that declares the friends
`befriends`, with `body` the call its body makes. The operator is no member: unless it is a
friend, or names no private member, the instantiation is ill-formed and there is no call to
make (`none`). -/
def comparison_for {T : Type} (befriends : Comparison → Bool) (op : Comparison)
    (body : Call T Bool) : Option (Call T Bool) :=
  if befriends op || (Comparison.names op).all (fun d => !ts_queue.is_private d) then some body
  else none

/-! ## Call sequences and reachable states -/

/-- Call `push` on each element of `xs`, in order (the loops of the tests, lines 12-14 and
28-31 of `ts_queue_tests.cpp`). -/
def push_each {T : Type} (t : Tid) (self : Addr) : List T → Call T Unit
  | [] => pure ()
  | x :: xs => do
      ts_queue.push t self x
      push_each t self xs

/-- Call `pop` `n` times (the loop of the tests, lines 16-18). -/
def pop_each {T : Type} (t : Tid) (self : Addr) : Nat → Call T Unit
  | 0 => pure ()
  | n + 1 => do
      ts_queue.pop t self
      pop_each t self n

/-- Read `front()` and then call `pop()`, `n` times; the values read, in the order read. -/
def front_pop_each {T : Type} (t : Tid) (self : Addr) : Nat → Call T (List T)
  | 0 => pure []
  | n + 1 => do
      let v ← ts_queue.front t self
      ts_queue.pop t self
      let vs ← front_pop_each t self n
      pure (v :: vs)

/-- The memories in which the instance at `self` has been built by one of the constructors and
then used through any sequence of `push`, `emplace` and `pop` calls that returned, each made by
any thread. A `pop` of an empty queue does not return, so every `pop` counted here respects its
precondition. -/
inductive Reachable {T : Type} (self : Addr) : Mem T → Prop where
  | ctor (m m1 : Mem T) :
      ts_queue.ctor self m = Outcome.ok ((), m1) → Reachable self m1
  | ctor_container (oc : Container T) (m m1 : Mem T) :
      ts_queue.ctor_container self oc m = Outcome.ok ((), m1) → Reachable self m1
  | ctor_copy (t : Tid) (q : Addr) (m m1 : Mem T) :
      ts_queue.ctor_copy t self q m = Outcome.ok ((), m1) → Reachable self m1
  | ctor_move (t : Tid) (q : Addr) (residue : Container T) (m m1 : Mem T) :
      ts_queue.ctor_move t self q residue m = Outcome.ok ((), m1) → Reachable self m1
  | push (t : Tid) (x : T) (m m1 : Mem T) :
      Reachable self m → ts_queue.push t self x m = Outcome.ok ((), m1) → Reachable self m1
  | emplace (t : Tid) (Args : Type) (mk : Args → T) (args : Args) (m m1 : Mem T) :
      Reachable self m → ts_queue.emplace t self mk args m = Outcome.ok ((), m1) →
      Reachable self m1
  | pop (t : Tid) (m m1 : Mem T) :
      Reachable self m → ts_queue.pop t self m = Outcome.ok ((), m1) → Reachable self m1

/-- A memory in which every address holds an empty queue with a free guard, and nothing has
happened yet. -/
def Mem.fresh {T : Type} : Mem T :=
  { obj := fun _ => { c := [], lock := none }, log := [] }

/-- The guards acquired in a trace, in the order they were acquired. -/
def acquired : List Event → List Addr
  | [] => []
  | Event.acquire _ a :: es => a :: acquired es
  | _ :: es => acquired es

/-! ## What the documentation says the comparisons compute -/

/-- The sequences have the same size and pairwise equal elements, in order (the comment of
`operator==`, line 109). -/
def SameElements {T : Type} (xs ys : List T) : Prop :=
  xs.length = ys.length ∧ ∀ i, i < xs.length → xs[i]? = ys[i]?

/-- The sequences have the same size and pairwise equal elements, in order, where two elements
are equal when `eqv`, the `==` of the element type, says so. -/
def SameElementsBy {T : Type} (eqv : T → T → Bool) (xs ys : List T) : Prop :=
  xs.length = ys.length ∧ ∀ (i : Nat) (a b : T), xs[i]? = some a → ys[i]? = some b → eqv a b = true

/-- The sequence `xs` is lexicographically less than `ys` (the comment of `operator<`,
line 124): either the two agree before some position `i` where they differ and there the
element of `xs` is the lesser, or `xs` is shorter than `ys` and agrees with its beginning. -/
def LexLess {T : Type} [LT T] (xs ys : List T) : Prop :=
  (∃ i a b, xs[i]? = some a ∧ ys[i]? = some b ∧ xs.take i = ys.take i ∧ a ≠ b ∧ a < b)
    ∨ (xs.length < ys.length ∧ ys.take xs.length = xs)

/-! ## Traces, call sequences on one instance, frames -/

/-- The guards released in a trace, in the order they were released. -/
def released : List Event → List Addr
  | [] => []
  | Event.release _ a :: es => a :: released es
  | _ :: es => released es

/-- Whether every storage access of a trace is made while the accessing thread holds the guard
of the instance it accesses; `held` lists the guards held when the trace starts. -/
def disciplined (held : List (Tid × Addr)) : List Event → Bool
  | [] => true
  | Event.acquire t a :: es => disciplined ((t, a) :: held) es
  | Event.release t a :: es => disciplined (held.erase (t, a)) es
  | Event.access t a :: es => held.contains (t, a) && disciplined held es

/-- One call that changes an instance: `push(x)`, `emplace(args...)` or `pop()`. -/
inductive Op (T : Type) where
  | push (x : T)
  | emplace (Args : Type) (mk : Args → T) (args : Args)
  | pop

/-- The call of `op` on the instance at `self` by thread `t`. -/
def Op.call {T : Type} (t : Tid) (self : Addr) : Op T → Call T Unit
  | Op.push x => ts_queue.push t self x
  | Op.emplace _ mk args => ts_queue.emplace t self mk args
  | Op.pop => ts_queue.pop t self

/-- A sequence of calls on the instance at `self`, each by the thread named with it. -/
def call_each {T : Type} (self : Addr) : List (Tid × Op T) → Call T Unit
  | [] => pure ()
  | (t, op) :: ops => do
      Op.call t self op
      call_each self ops

/-- A call that, when it returns, has left every instance other than the one at `a` as it
was. -/
def Frames {T α : Type} (a : Addr) (x : Call T α) : Prop :=
  ∀ m r m1, x m = Outcome.ok (r, m1) → ∀ b, b ≠ a → m1.obj b = m.obj b

/-- A call that, when it returns, has left the element sequence of every instance as it
was. -/
def KeepsStorage {T α : Type} (x : Call T α) : Prop :=
  ∀ m r m1, x m = Outcome.ok (r, m1) → ∀ b, (m1.obj b).c = (m.obj b).c

/-- A call that returns from the memory `m`, having acquired exactly one guard, that of
the instance at `self`, and released it again: the guard is free afterwards and every
other instance is as it was. -/
def OneLock {T α : Type} (self : Addr) (m : Mem T) (x : Call T α) : Prop :=
  ∃ r m1 es, x m = Outcome.ok (r, m1) ∧ m1.log = m.log ++ es
    ∧ acquired es = [self] ∧ released es = [self]
    ∧ (m1.obj self).lock = none ∧ ∀ b, b ≠ self → m1.obj b = m.obj b

/-- A call that returns from the memory `m` and whose storage accesses are, with `ok = true`,
all made under the guard of the instance accessed, or, with `ok = false`, not all. -/
def Discipline {T α : Type} (ok : Bool) (m : Mem T) (x : Call T α) : Prop :=
  ∃ r m1 es, x m = Outcome.ok (r, m1) ∧ m1.log = m.log ++ es ∧ disciplined [] es = ok

/-- The member functions of the backing store that the member functions of the adaptor name
(class comment, lines 24-27). -/
inductive Member where
  | front
  | back
  | empty
  | size
  | push
  | emplace_back
  | pop
  deriving DecidableEq, Repr

/-- Whether `std::queue<T>` of the standard library, the default `Container` (line 29),
declares the member: it declares `front`, `back`, `empty`, `size`, `push`, `emplace`, `pop`
and `swap`, and no `emplace_back`. -/
def std_queue_declares : Member → Bool
  | Member.emplace_back => false
  | _ => true

/-- The member template `emplace` (lines 87-91) instantiated for a backing store type that
declares the members `declares`. Its body names `c.emplace_back`: for a type without that
member the instantiation is ill-formed and there is no call to make (`none`). -/
def ts_queue.emplace_for {T Args : Type} (declares : Member → Bool) (t : Tid) (self : Addr)
    (mk : Args → T) (args : Args) : Option (Call T Unit) :=
  if declares Member.emplace_back then some (ts_queue.emplace t self mk args) else none

/-! ## Threads: the calls as sequences of atomic steps

Between two steps of one thread other threads may take steps of their own. A step is one
operation on a mutex or one access to the storage of an instance; what a thread computes in
between is local to it. -/

/-- One atomic step of a thread. -/
inductive Atom (T : Type) where
  /-- The constructor of a `std::lock_guard` on the guard of the instance at `a`. -/
  | lock (a : Addr)
  /-- The destructor of a `std::lock_guard` on the guard of the instance at `a`. -/
  | unlock (a : Addr)
  /-- Read the storage of the instance at `a` into the temporary of the thread. -/
  | read (a : Addr)
  /-- Write the temporary of the thread, with `x` appended, to the storage of the instance
  at `a`: the second half of `c.push(x)`. -/
  | write_push (a : Addr) (x : T)
  deriving DecidableEq, Repr

/-- The step `atom` taken by thread `t`, whose temporary holds `tmp`; the temporary
afterwards is returned. -/
def Atom.run {T : Type} (t : Tid) (tmp : Container T) : Atom T → Call T (Container T)
  | Atom.lock a => do
      mutex_lock t a
      pure tmp
  | Atom.unlock a => do
      mutex_unlock t a
      pure tmp
  | Atom.read a => read_c t a
  | Atom.write_push a x => do
      write_c t a (Container.push tmp x)
      pure tmp

/-- The steps of `LOCK_GUARD(m)` followed by the steps `body` of the rest of the function. -/
def guard_atoms {T : Type} (a : Addr) (body : List (Atom T)) : List (Atom T) :=
  Atom.lock a :: (body ++ [Atom.unlock a])

/-- The steps of `LOCK_GUARDS(m1, m2)` followed by the steps `body`. -/
def guards_atoms {T : Type} (x y : Addr) (body : List (Atom T)) : List (Atom T) :=
  guard_atoms x (guard_atoms y body)

/-- The steps of `push(x)` on the instance at `a` (lines 76 and 78). -/
def push_atoms {T : Type} (a : Addr) (x : T) : List (Atom T) :=
  guard_atoms a [Atom.read a, Atom.write_push a x]

/-- The steps of `operator==(x, y)` (lines 111-115): both storages are read under both
guards. -/
def eq_atoms {T : Type} (x y : Addr) : List (Atom T) :=
  guards_atoms x y [Atom.read x, Atom.read y]

/-- The steps of `operator<(x, y)` (lines 126-130). -/
def lt_atoms {T : Type} (x y : Addr) : List (Atom T) :=
  guards_atoms x y [Atom.read x, Atom.read y]

/-- The steps of `operator!=(x, y)` (lines 132-137): those of `x == y` under both guards. -/
def ne_atoms {T : Type} (x y : Addr) : List (Atom T) :=
  guards_atoms x y (eq_atoms x y)

/-- The steps of `operator>(x, y)` (lines 139-144): those of `y < x` under both guards. -/
def gt_atoms {T : Type} (x y : Addr) : List (Atom T) :=
  guards_atoms x y (lt_atoms y x)

/-- The steps of `operator<=(x, y)` (lines 146-151): those of `y < x` under both guards. -/
def le_atoms {T : Type} (x y : Addr) : List (Atom T) :=
  guards_atoms x y (lt_atoms y x)

/-- The steps of `operator>=(x, y)` (lines 153-158): those of `x < y` under both guards. -/
def ge_atoms {T : Type} (x y : Addr) : List (Atom T) :=
  guards_atoms x y (lt_atoms x y)

/-- The steps of one thread taken one after the other with no other thread in between. -/
def exec {T : Type} (t : Tid) : List (Atom T) → Container T → Call T (Container T)
  | [], tmp => pure tmp
  | atom :: rest, tmp => do
      let tmp1 ← Atom.run t tmp atom
      exec t rest tmp1

/-- What a call does to the memory, the value it returns forgotten. -/
def effect {T α : Type} (x : Call T α) : Call T Unit := do
  let _ ← x
  pure ()

/-- The memory when thread `t`, running alone, has taken all the steps or can take no further
step. -/
def run_alone {T : Type} (t : Tid) : List (Atom T) → Container T → Mem T → Mem T
  | [], _, m => m
  | atom :: rest, tmp, m =>
      match Atom.run t tmp atom m with
      | Outcome.ok (tmp1, m1) => run_alone t rest tmp1 m1
      | _ => m

/-- A thread: the steps it has still to take and its temporary. -/
structure Thread (T : Type) where
  todo : List (Atom T)
  tmp : Container T

/-- The threads, thread `i` at position `i`, and the memory they share. -/
structure Config (T : Type) where
  threads : List (Thread T)
  mem : Mem T

/-- Thread `i` takes its next step, if it has one and the step can be taken now. A thread
whose next step locks a guard owned by another thread waits for it; a thread whose next step
locks a guard it owns itself can never take that step. -/
def step {T : Type} (i : Tid) (cfg : Config T) : Option (Config T) :=
  match cfg.threads[i]? with
  | none => none
  | some th =>
      match th.todo with
      | [] => none
      | atom :: rest =>
          match Atom.run i th.tmp atom cfg.mem with
          | Outcome.ok (tmp1, m1) =>
              some { threads := cfg.threads.set i { todo := rest, tmp := tmp1 }, mem := m1 }
          | _ => none

/-- The threads take steps in the order of the schedule `s`. -/
def run {T : Type} : List Tid → Config T → Option (Config T)
  | [], cfg => some cfg
  | i :: s, cfg =>
      match step i cfg with
      | none => none
      | some cfg1 => run s cfg1

/-- Every thread has taken all its steps. -/
def finished {T : Type} (cfg : Config T) : Bool :=
  cfg.threads.all fun th => th.todo.isEmpty

/-- No thread can take a step, now or ever, and some thread has steps left. -/
def Deadlock {T : Type} (cfg : Config T) : Prop :=
  (∀ i, step i cfg = none) ∧ finished cfg = false

/-- The guards thread `t` acquired in a trace, in the order it acquired them. -/
def acquired_by (t : Tid) : List Event → List Addr
  | [] => []
  | Event.acquire u a :: es => if u = t then a :: acquired_by t es else acquired_by t es
  | _ :: es => acquired_by t es

/-- Whether the step locks a guard. -/
def Atom.is_lock {T : Type} : Atom T → Bool
  | Atom.lock _ => true
  | _ => false

/-- Whether the step writes to a storage. -/
def Atom.is_write {T : Type} : Atom T → Bool
  | Atom.write_push _ _ => true
  | _ => false

/-- Steps that either lock nothing or begin by locking the guard of `x` or of `y`. -/
def LocksAgain {T : Type} (x y : Addr) (R : List (Atom T)) : Prop :=
  R.all (fun atom => !atom.is_lock) = true
    ∨ ∃ z R1, (z = x ∨ z = y) ∧ R = Atom.lock z :: R1

/-- Where thread `i` stands in a comparison of `x` with `y` that started when the trace was
`log0`: it has acquired nothing and will lock `x` then `y`; or it has acquired `x`, holds it
and will lock `y`; or it has acquired `x` then `y`, holds both and asks for one of them again;
or it has acquired `x` then `y` and locks nothing more. -/
def OrderInv {T : Type} (i : Tid) (x y : Addr) (log0 : List Event) (cfg : Config T) : Prop :=
  ∃ th es, cfg.threads[i]? = some th ∧ cfg.mem.log = log0 ++ es ∧
    ((acquired_by i es = []
        ∧ ∃ R, th.todo = Atom.lock x :: Atom.lock y :: R ∧ LocksAgain x y R)
    ∨ (acquired_by i es = [x] ∧ (cfg.mem.obj x).lock = some i
        ∧ ∃ R, th.todo = Atom.lock y :: R ∧ LocksAgain x y R)
    ∨ (acquired_by i es = [x, y] ∧ (cfg.mem.obj x).lock = some i
        ∧ (cfg.mem.obj y).lock = some i
        ∧ ∃ z R1, (z = x ∨ z = y) ∧ th.todo = Atom.lock z :: R1)
    ∨ (acquired_by i es = [x, y] ∧ th.todo.all (fun atom => !atom.is_lock) = true))

/-! ## Threads that push -/

/-- The steps of a thread that calls `push` on the instance at `a` for each element of `xs`,
in order. -/
def push_each_atoms {T : Type} (a : Addr) : List T → List (Atom T)
  | [] => []
  | x :: xs => push_atoms a x ++ push_each_atoms a xs

/-- The elements that the steps still write, in order. -/
def pending {T : Type} : List (Atom T) → List T
  | [] => []
  | Atom.write_push _ x :: rest => x :: pending rest
  | _ :: rest => pending rest

/-- Where thread `i`, with steps `todo` left and temporary `tmp`, stands while it pushes onto
the instance `q` at `a`: between two calls, not owning the guard; or owning the guard, before
the read, before the write with the temporary equal to the storage, or before the unlock. -/
inductive PushPhase {T : Type} (a : Addr) (q : ts_queue T) (i : Tid) :
    List (Atom T) → Container T → Prop where
  | idle (xs : List T) (tmp : Container T) :
      q.lock ≠ some i → PushPhase a q i (push_each_atoms a xs) tmp
  | locked (x : T) (xs : List T) (tmp : Container T) :
      q.lock = some i →
      PushPhase a q i
        (Atom.read a :: Atom.write_push a x :: Atom.unlock a :: push_each_atoms a xs) tmp
  | loaded (x : T) (xs : List T) :
      q.lock = some i →
      PushPhase a q i (Atom.write_push a x :: Atom.unlock a :: push_each_atoms a xs) q.c
  | stored (xs : List T) (tmp : Container T) :
      q.lock = some i → PushPhase a q i (Atom.unlock a :: push_each_atoms a xs) tmp

/-- What holds of the threads that push onto the instance at `a` at every moment: each thread
stands at one of the four places, the guard is owned by one of the threads if by any, and the
elements in the storage together with those still to be written are the elements `total`. -/
structure PushInv {T : Type} (a : Addr) (total : List T) (cfg : Config T) : Prop where
  phase : ∀ i th, cfg.threads[i]? = some th → PushPhase a (cfg.mem.obj a) i th.todo th.tmp
  owner : ∀ j, (cfg.mem.obj a).lock = some j → j < cfg.threads.length
  count : List.Perm
    ((cfg.mem.obj a).c ++ (cfg.threads.map fun th => pending th.todo).flatten) total

/-! ## Basic facts about calls and the memory -/

@[simp] theorem call_bind_apply {T α β : Type} (x : Call T α) (f : α → Call T β) (m : Mem T) :
    (x >>= f) m = Call.bind x f m := rfl

@[simp] theorem call_pure_apply {T α : Type} (a : α) (m : Mem T) :
    (Pure.pure a : Call T α) m = Outcome.ok (a, m) := rfl

theorem seq_of_ok {T α β : Type} {x : Call T α} {m m1 : Mem T} {a : α}
    (h : x m = Outcome.ok (a, m1)) (f : α → Call T β) : (x >>= f) m = f a m1 := by
  simp [Call.bind, h]

@[simp] theorem store_obj_same {T : Type} (m : Mem T) (a : Addr) (q : ts_queue T) :
    (m.store a q).obj a = q := by
  simp [Mem.store]

theorem store_obj_other {T : Type} (m : Mem T) {a b : Addr} (q : ts_queue T) (h : b ≠ a) :
    (m.store a q).obj b = m.obj b := by
  simp [Mem.store, h]

theorem store_obj_self {T : Type} (m : Mem T) (a : Addr) :
    (m.store a (m.obj a)).obj = m.obj := by
  funext b
  by_cases hb : b = a
  · subst hb; simp [Mem.store]
  · simp [Mem.store, hb]

/-! ## Each member function on an instance whose guard is free -/

theorem empty_spec {T : Type} (t : Tid) (self : Addr) (m : Mem T)
    (h : (m.obj self).lock = none) :
    ts_queue.empty t self m = Outcome.ok (Container.empty (m.obj self).c,
      { obj := m.obj,
        log := m.log ++ [Event.acquire t self, Event.access t self, Event.release t self] }) := by
  simp [ts_queue.empty, LOCK_GUARD, Call.bind, mutex_lock, mutex_unlock, read_c,
    Mem.store, Mem.emit, h]
  funext b
  split
  · next hb => subst hb; rw [← h]
  · rfl

theorem size_spec {T : Type} (t : Tid) (self : Addr) (m : Mem T)
    (h : (m.obj self).lock = none) :
    ts_queue.size t self m = Outcome.ok (Container.size (m.obj self).c,
      { obj := m.obj,
        log := m.log ++ [Event.acquire t self, Event.access t self, Event.release t self] }) := by
  simp [ts_queue.size, LOCK_GUARD, Call.bind, mutex_lock, mutex_unlock, read_c,
    Mem.store, Mem.emit, h]
  funext b
  split
  · next hb => subst hb; rw [← h]
  · rfl

theorem front_spec {T : Type} (t : Tid) (self : Addr) (m : Mem T) (x : T) (rest : List T)
    (h : (m.obj self).lock = none) (hc : (m.obj self).c = x :: rest) :
    ts_queue.front t self m = Outcome.ok (x,
      { obj := m.obj,
        log := m.log ++ [Event.acquire t self, Event.access t self, Event.release t self] }) := by
  simp [ts_queue.front, LOCK_GUARD, Call.bind, mutex_lock, mutex_unlock, read_c,
    Mem.store, Mem.emit, Container.front, h, hc]
  funext b
  split
  · next hb => subst hb; rw [← h, ← hc]
  · rfl

theorem push_spec {T : Type} (t : Tid) (self : Addr) (x : T) (m : Mem T)
    (h : (m.obj self).lock = none) :
    ts_queue.push t self x m = Outcome.ok ((),
      { obj := (m.store self { c := (m.obj self).c ++ [x], lock := none }).obj,
        log := m.log ++ [Event.acquire t self, Event.access t self, Event.access t self,
          Event.release t self] }) := by
  simp [ts_queue.push, LOCK_GUARD, Call.bind, mutex_lock, mutex_unlock, read_c,
    write_c, Mem.store, Mem.emit, Container.push, h]
  funext b
  split <;> rfl

theorem emplace_spec {T Args : Type} (t : Tid) (self : Addr) (mk : Args → T) (args : Args)
    (m : Mem T) (h : (m.obj self).lock = none) :
    ts_queue.emplace t self mk args m = Outcome.ok ((),
      { obj := (m.store self { c := (m.obj self).c ++ [mk args], lock := none }).obj,
        log := m.log ++ [Event.acquire t self, Event.access t self, Event.access t self,
          Event.release t self] }) := by
  simp [ts_queue.emplace, LOCK_GUARD, Call.bind, mutex_lock, mutex_unlock, read_c,
    write_c, Mem.store, Mem.emit, Container.emplace_back, h]
  funext b
  split <;> rfl

theorem pop_spec {T : Type} (t : Tid) (self : Addr) (m : Mem T) (x : T) (rest : List T)
    (h : (m.obj self).lock = none) (hc : (m.obj self).c = x :: rest) :
    ts_queue.pop t self m = Outcome.ok ((),
      { obj := (m.store self { c := rest, lock := none }).obj,
        log := m.log ++ [Event.acquire t self, Event.access t self, Event.access t self,
          Event.release t self] }) := by
  simp [ts_queue.pop, LOCK_GUARD, Call.bind, mutex_lock, mutex_unlock, read_c,
    write_c, Mem.store, Mem.emit, Container.pop, h, hc]
  funext b
  split <;> rfl

theorem pop_empty_undefined {T : Type} (t : Tid) (self : Addr) (m : Mem T)
    (hc : (m.obj self).c = []) : (ts_queue.pop t self m).value = none := by
  simp only [ts_queue.pop, LOCK_GUARD, call_bind_apply, Call.bind, mutex_lock]
  cases hl : (m.obj self).lock with
  | some o => by_cases ho : o = t <;> simp [ho, Outcome.value]
  | none =>
    simp [read_c, Mem.store, Mem.emit, Container.pop, hc, undefined_behaviour, Outcome.value]

/-! ## Constructors and call sequences -/

theorem ctor_spec {T : Type} (self : Addr) (m : Mem T) :
    ts_queue.ctor self m = Outcome.ok ((), m.store self { c := [], lock := none }) := rfl

theorem ctor_container_spec {T : Type} (self : Addr) (oc : Container T) (m : Mem T) :
    ts_queue.ctor_container self oc m
      = Outcome.ok ((), m.store self { c := oc, lock := none }) := rfl

theorem store_same_contents {T : Type} (m : Mem T) (self : Addr) (c : Container T)
    (h : (m.obj self).lock = none) (hc : (m.obj self).c = c) :
    (m.store self { c := c, lock := none }).obj = m.obj := by
  have : ({ c := c, lock := none } : ts_queue T) = m.obj self := by
    rw [← h, ← hc]
  rw [this, store_obj_self]

theorem front_ok {T : Type} (t : Tid) (self : Addr) (m : Mem T) (x : T) (rest : List T)
    (h : (m.obj self).lock = none) (hc : (m.obj self).c = x :: rest) :
    ∃ m1, ts_queue.front t self m = Outcome.ok (x, m1) ∧ m1.obj = m.obj :=
  ⟨_, front_spec t self m x rest h hc, rfl⟩

theorem push_ok {T : Type} (t : Tid) (self : Addr) (x : T) (m : Mem T)
    (h : (m.obj self).lock = none) :
    ∃ m1, ts_queue.push t self x m = Outcome.ok ((), m1)
      ∧ m1.obj = (m.store self { c := (m.obj self).c ++ [x], lock := none }).obj :=
  ⟨_, push_spec t self x m h, rfl⟩

theorem pop_ok {T : Type} (t : Tid) (self : Addr) (m : Mem T) (x : T) (rest : List T)
    (h : (m.obj self).lock = none) (hc : (m.obj self).c = x :: rest) :
    ∃ m1, ts_queue.pop t self m = Outcome.ok ((), m1)
      ∧ m1.obj = (m.store self { c := rest, lock := none }).obj :=
  ⟨_, pop_spec t self m x rest h hc, rfl⟩

theorem push_each_spec {T : Type} (t : Tid) (self : Addr) (xs : List T) :
    ∀ m : Mem T, (m.obj self).lock = none →
      ∃ m1, push_each t self xs m = Outcome.ok ((), m1)
        ∧ m1.obj = (m.store self { c := (m.obj self).c ++ xs, lock := none }).obj := by
  induction xs with
  | nil =>
    intro m h
    exact ⟨m, rfl, (store_same_contents m self _ h (by simp)).symm⟩
  | cons x xs ih =>
    intro m h
    obtain ⟨ma, ha, hao⟩ := push_ok t self x m h
    obtain ⟨m1, h1, h2⟩ := ih ma (by simp [hao])
    refine ⟨m1, ?_, ?_⟩
    · simp only [push_each]
      rw [seq_of_ok ha]
      exact h1
    · rw [h2]
      funext b
      by_cases hb : b = self <;> simp [Mem.store, hb, hao]

theorem pop_each_spec {T : Type} (t : Tid) (self : Addr) (n : Nat) :
    ∀ m : Mem T, (m.obj self).lock = none → n ≤ (m.obj self).c.length →
      ∃ m1, pop_each t self n m = Outcome.ok ((), m1)
        ∧ m1.obj = (m.store self { c := (m.obj self).c.drop n, lock := none }).obj := by
  induction n with
  | zero =>
    intro m h _
    exact ⟨m, rfl, (store_same_contents m self _ h (by simp)).symm⟩
  | succ n ih =>
    intro m h hn
    cases hc : (m.obj self).c with
    | nil => rw [hc] at hn; simp at hn
    | cons x rest =>
      rw [hc] at hn
      obtain ⟨ma, ha, hao⟩ := pop_ok t self m x rest h hc
      obtain ⟨m1, h1, h2⟩ := ih ma (by simp [hao]) (by simpa [hao] using hn)
      refine ⟨m1, ?_, ?_⟩
      · simp only [pop_each]
        rw [seq_of_ok ha]
        exact h1
      · rw [h2]
        funext b
        by_cases hb : b = self <;> simp [Mem.store, hb, hao]

theorem front_pop_each_spec {T : Type} (t : Tid) (self : Addr) (n : Nat) :
    ∀ m : Mem T, (m.obj self).lock = none → n ≤ (m.obj self).c.length →
      ∃ m1, front_pop_each t self n m = Outcome.ok ((m.obj self).c.take n, m1)
        ∧ m1.obj = (m.store self { c := (m.obj self).c.drop n, lock := none }).obj := by
  induction n with
  | zero =>
    intro m h _
    exact ⟨m, by simp [front_pop_each], (store_same_contents m self _ h (by simp)).symm⟩
  | succ n ih =>
    intro m h hn
    cases hc : (m.obj self).c with
    | nil => rw [hc] at hn; simp at hn
    | cons x rest =>
      rw [hc] at hn
      obtain ⟨ma, ha, hao⟩ := front_ok t self m x rest h hc
      obtain ⟨mb, hb, hbo⟩ := pop_ok t self ma x rest (by rw [hao]; exact h) (by rw [hao]; exact hc)
      obtain ⟨m1, h1, h2⟩ := ih mb (by simp [hbo]) (by simpa [hbo] using hn)
      refine ⟨m1, ?_, ?_⟩
      · simp only [front_pop_each]
        rw [seq_of_ok ha, seq_of_ok hb, seq_of_ok h1]
        simp [hbo]
      · rw [h2]
        funext b
        by_cases hb : b = self <;> simp [Mem.store, hb, hbo, hao]

theorem size_ok {T : Type} (t : Tid) (self : Addr) (m : Mem T)
    (h : (m.obj self).lock = none) :
    (ts_queue.size t self m).value = some (m.obj self).c.length := by
  rw [size_spec t self m h]; rfl

theorem empty_ok {T : Type} (t : Tid) (self : Addr) (m : Mem T)
    (h : (m.obj self).lock = none) :
    (ts_queue.empty t self m).value = some (m.obj self).c.isEmpty := by
  rw [empty_spec t self m h]; rfl

/-- Between calls the guard of a reachable instance is free. -/
theorem reachable_guard_free {T : Type} (self : Addr) (m : Mem T) (h : Reachable self m) :
    (m.obj self).lock = none := by
  induction h with
  | ctor m m1 h =>
    rw [ctor_spec] at h; cases h; simp
  | ctor_container oc m m1 h =>
    rw [ctor_container_spec] at h; cases h; simp
  | ctor_copy t q m m1 h =>
    simp [ts_queue.ctor_copy, Call.bind, read_c] at h
    subst h; simp
  | ctor_move t q residue m m1 h =>
    simp [ts_queue.ctor_move, Call.bind, read_c, write_c] at h
    subst h; simp
  | push t x m m1 _ h ih =>
    rw [push_spec t self x m ih] at h; cases h; simp
  | emplace t Args mk args m m1 _ h ih =>
    rw [emplace_spec t self mk args m ih] at h; cases h; simp
  | pop t m m1 _ h ih =>
    cases hc : (m.obj self).c with
    | nil =>
      have := pop_empty_undefined t self m hc
      rw [h] at this; simp [Outcome.value] at this
    | cons x rest =>
      rw [pop_spec t self m x rest ih hc] at h; cases h; simp

/-! ## The comparison operators and the guards -/

/-- A thread that locks a mutex it owns does not come back. -/
theorem mutex_lock_held {T : Type} (t : Tid) (a : Addr) (m : Mem T)
    (h : (m.obj a).lock = some t) : mutex_lock t a m = Outcome.relock := by
  simp [mutex_lock, h]

theorem LOCK_GUARD_held {T α : Type} (t : Tid) (a : Addr) (body : Call T α) (m : Mem T)
    (h : (m.obj a).lock = some t) : LOCK_GUARD t a body m = Outcome.relock := by
  simp [LOCK_GUARD, Call.bind, mutex_lock_held t a m h]

/-- A guarded body that cannot proceed whenever the guard is held keeps the whole call from
returning. -/
theorem LOCK_GUARD_stuck {T α : Type} (t : Tid) (a : Addr) (body : Call T α) (m : Mem T)
    (hbody : ∀ m1 : Mem T, (m1.obj a).lock = some t → (∀ b, b ≠ a → m1.obj b = m.obj b) →
      body m1 = Outcome.relock ∨ body m1 = Outcome.blocked) :
    LOCK_GUARD t a body m = Outcome.relock ∨ LOCK_GUARD t a body m = Outcome.blocked := by
  cases hl : (m.obj a).lock with
  | some o =>
    by_cases ho : o = t
    · left; simp [LOCK_GUARD, Call.bind, mutex_lock, hl, ho]
    · right; simp [LOCK_GUARD, Call.bind, mutex_lock, hl, ho]
  | none =>
    have hb := hbody ((m.store a { m.obj a with lock := some t }).emit (Event.acquire t a))
      (by simp [Mem.emit]) (by intro b hb; simp [Mem.emit, Mem.store, hb])
    rcases hb with hb | hb
    · left; simp [LOCK_GUARD, Call.bind, mutex_lock, hl, hb]
    · right; simp [LOCK_GUARD, Call.bind, mutex_lock, hl, hb]

theorem LOCK_GUARDS_stuck {T α : Type} (t : Tid) (x y : Addr) (body : Call T α) (m : Mem T)
    (hbody : ∀ m2 : Mem T, (m2.obj x).lock = some t → (m2.obj y).lock = some t →
      body m2 = Outcome.relock ∨ body m2 = Outcome.blocked) :
    LOCK_GUARDS t x y body m = Outcome.relock ∨ LOCK_GUARDS t x y body m = Outcome.blocked := by
  apply LOCK_GUARD_stuck
  intro m1 hx1 _
  apply LOCK_GUARD_stuck
  intro m2 hy2 hoth
  apply hbody m2 _ hy2
  by_cases hxy : x = y
  · rw [hxy]; exact hy2
  · rw [hoth x hxy]; exact hx1

theorem operator_eq_held {T : Type} [BEq T] (t : Tid) (x y : Addr) (m : Mem T)
    (h : (m.obj x).lock = some t) : operator_eq t x y m = Outcome.relock :=
  LOCK_GUARD_held t x _ m h

theorem operator_lt_held {T : Type} (lt : T → T → Bool) (t : Tid) (x y : Addr) (m : Mem T)
    (h : (m.obj x).lock = some t) : operator_lt lt t x y m = Outcome.relock :=
  LOCK_GUARD_held t x _ m h

theorem operator_ne_stuck {T : Type} [BEq T] (t : Tid) (x y : Addr) (m : Mem T) :
    operator_ne t x y m = Outcome.relock ∨ operator_ne t x y m = Outcome.blocked := by
  apply LOCK_GUARDS_stuck
  intro m2 hx _
  left
  simp [Call.bind, operator_eq_held t x y m2 hx]

theorem operator_gt_stuck {T : Type} (lt : T → T → Bool) (t : Tid) (x y : Addr) (m : Mem T) :
    operator_gt lt t x y m = Outcome.relock ∨ operator_gt lt t x y m = Outcome.blocked := by
  apply LOCK_GUARDS_stuck
  intro m2 _ hy
  left
  simp [Call.bind, operator_lt_held lt t y x m2 hy]

theorem operator_le_stuck {T : Type} (lt : T → T → Bool) (t : Tid) (x y : Addr) (m : Mem T) :
    operator_le lt t x y m = Outcome.relock ∨ operator_le lt t x y m = Outcome.blocked := by
  apply LOCK_GUARDS_stuck
  intro m2 _ hy
  left
  simp [Call.bind, operator_lt_held lt t y x m2 hy]

theorem operator_ge_stuck {T : Type} (lt : T → T → Bool) (t : Tid) (x y : Addr) (m : Mem T) :
    operator_ge lt t x y m = Outcome.relock ∨ operator_ge lt t x y m = Outcome.blocked := by
  apply LOCK_GUARDS_stuck
  intro m2 hx _
  left
  simp [Call.bind, operator_lt_held lt t x y m2 hx]

/-- With both guards free the first two acquisitions succeed, so the call ends at the third. -/
theorem LOCK_GUARDS_relock {T α : Type} (t : Tid) (x y : Addr) (body : Call T α) (m : Mem T)
    (hxy : x ≠ y) (hx : (m.obj x).lock = none) (hy : (m.obj y).lock = none)
    (hbody : ∀ m2 : Mem T, (m2.obj x).lock = some t → (m2.obj y).lock = some t →
      body m2 = Outcome.relock) :
    LOCK_GUARDS t x y body m = Outcome.relock := by
  have hyx : y ≠ x := fun h => hxy h.symm
  have hb := hbody
    ((((m.store x { m.obj x with lock := some t }).emit (Event.acquire t x)).store y
      { m.obj y with lock := some t }).emit (Event.acquire t y))
    (by simp [Mem.emit, Mem.store, hxy]) (by simp [Mem.emit, Mem.store])
  simp [Mem.emit, Mem.store] at hb
  simp [LOCK_GUARDS, LOCK_GUARD, Call.bind, mutex_lock, Mem.store, Mem.emit, hx, hy, hyx, hb]

theorem operator_eq_spec {T : Type} [BEq T] (t : Tid) (x y : Addr) (m : Mem T)
    (hxy : x ≠ y) (hx : (m.obj x).lock = none) (hy : (m.obj y).lock = none) :
    operator_eq t x y m = Outcome.ok (Container.eq (m.obj x).c (m.obj y).c,
      { obj := m.obj,
        log := m.log ++ [Event.acquire t x, Event.acquire t y, Event.access t x,
          Event.access t y, Event.release t y, Event.release t x] }) := by
  have hyx : y ≠ x := fun h => hxy h.symm
  simp [operator_eq, LOCK_GUARDS, LOCK_GUARD, Call.bind, mutex_lock, mutex_unlock, read_c,
    Mem.store, Mem.emit, hx, hy, hxy, hyx]
  funext b
  by_cases hbx : b = x
  · subst hbx; simp [hxy, ← hx]
  · by_cases hby : b = y
    · subst hby; simp [hbx, ← hy]
    · simp [hbx, hby]

theorem operator_lt_spec {T : Type} (lt : T → T → Bool) (t : Tid) (x y : Addr) (m : Mem T)
    (hxy : x ≠ y) (hx : (m.obj x).lock = none) (hy : (m.obj y).lock = none) :
    operator_lt lt t x y m = Outcome.ok (Container.lt lt (m.obj x).c (m.obj y).c,
      { obj := m.obj,
        log := m.log ++ [Event.acquire t x, Event.acquire t y, Event.access t x,
          Event.access t y, Event.release t y, Event.release t x] }) := by
  have hyx : y ≠ x := fun h => hxy h.symm
  simp [operator_lt, LOCK_GUARDS, LOCK_GUARD, Call.bind, mutex_lock, mutex_unlock, read_c,
    Mem.store, Mem.emit, hx, hy, hxy, hyx]
  funext b
  by_cases hbx : b = x
  · subst hbx; simp [hxy, ← hx]
  · by_cases hby : b = y
    · subst hby; simp [hbx, ← hy]
    · simp [hbx, hby]

theorem operator_ne_relock {T : Type} [BEq T] (t : Tid) (x y : Addr) (m : Mem T)
    (hxy : x ≠ y) (hx : (m.obj x).lock = none) (hy : (m.obj y).lock = none) :
    operator_ne t x y m = Outcome.relock := by
  apply LOCK_GUARDS_relock t x y _ m hxy hx hy
  intro m2 h2x _
  simp [Call.bind, operator_eq_held t x y m2 h2x]


theorem operator_gt_relock {T : Type} (lt : T → T → Bool) (t : Tid) (x y : Addr) (m : Mem T)
    (hxy : x ≠ y) (hx : (m.obj x).lock = none) (hy : (m.obj y).lock = none) :
    operator_gt lt t x y m = Outcome.relock := by
  apply LOCK_GUARDS_relock t x y _ m hxy hx hy
  intro m2 _ h2y
  simp [Call.bind, operator_lt_held lt t y x m2 h2y]

theorem operator_le_relock {T : Type} (lt : T → T → Bool) (t : Tid) (x y : Addr) (m : Mem T)
    (hxy : x ≠ y) (hx : (m.obj x).lock = none) (hy : (m.obj y).lock = none) :
    operator_le lt t x y m = Outcome.relock := by
  apply LOCK_GUARDS_relock t x y _ m hxy hx hy
  intro m2 _ h2y
  simp [Call.bind, operator_lt_held lt t y x m2 h2y]

theorem operator_ge_relock {T : Type} (lt : T → T → Bool) (t : Tid) (x y : Addr) (m : Mem T)
    (hxy : x ≠ y) (hx : (m.obj x).lock = none) (hy : (m.obj y).lock = none) :
    operator_ge lt t x y m = Outcome.relock := by
  apply LOCK_GUARDS_relock t x y _ m hxy hx hy
  intro m2 h2x _
  simp [Call.bind, operator_lt_held lt t x y m2 h2x]

/-! ## What the two base comparisons compute -/

theorem std_equal_iff {T : Type} [BEq T] [LawfulBEq T] :
    ∀ xs ys : List T, xs.length = ys.length → (std_equal xs ys = true ↔ xs = ys)
  | [], [], _ => by simp [std_equal]
  | [], _ :: _, h => by simp at h
  | _ :: _, [], h => by simp at h
  | a :: as, b :: bs, h => by
    have ih := std_equal_iff as bs (by simpa using h)
    simp [std_equal, ih]

theorem container_eq_iff {T : Type} [BEq T] [LawfulBEq T] (xs ys : List T) :
    Container.eq xs ys = true ↔ xs = ys := by
  unfold Container.eq Container.size
  constructor
  · intro h
    simp only [Bool.and_eq_true, beq_iff_eq] at h
    exact (std_equal_iff xs ys h.1).1 h.2
  · intro h
    subst h
    simp [(std_equal_iff xs xs rfl).2 rfl]

theorem std_equal_by {T : Type} [BEq T] :
    ∀ xs ys : List T, xs.length = ys.length →
      (std_equal xs ys = true
        ↔ ∀ (i : Nat) (a b : T), xs[i]? = some a → ys[i]? = some b → (a == b) = true)
  | [], [], _ => by simp [std_equal]
  | [], _ :: _, h => by simp at h
  | _ :: _, [], h => by simp at h
  | a :: as, b :: bs, h => by
    have ih := std_equal_by as bs (by simpa using h)
    simp only [std_equal, Bool.and_eq_true, ih]
    constructor
    · rintro ⟨hab, hrest⟩ i c d hc hd
      cases i with
      | zero =>
        simp at hc hd
        subst hc; subst hd
        exact hab
      | succ i =>
        simp at hc hd
        exact hrest i c d hc hd
    · intro hall
      exact ⟨hall 0 a b (by simp) (by simp),
        fun i c d hc hd => hall (i + 1) c d (by simpa using hc) (by simpa using hd)⟩

theorem container_eq_by {T : Type} [BEq T] (xs ys : List T) :
    Container.eq xs ys = true ↔ SameElementsBy (fun a b => a == b) xs ys := by
  unfold Container.eq Container.size SameElementsBy
  simp only [Bool.and_eq_true, beq_iff_eq]
  constructor
  · rintro ⟨hl, h⟩
    exact ⟨hl, (std_equal_by xs ys hl).1 h⟩
  · rintro ⟨hl, h⟩
    exact ⟨hl, (std_equal_by xs ys hl).2 h⟩

theorem std_equal_self {T : Type} [BEq T] (hrefl : ∀ a : T, (a == a) = true) :
    ∀ s : List T, std_equal s s = true
  | [] => by simp [std_equal]
  | a :: as => by simp [std_equal, hrefl a, std_equal_self hrefl as]

theorem sameElements_iff {T : Type} (xs ys : List T) : SameElements xs ys ↔ xs = ys := by
  constructor
  · rintro ⟨hl, h⟩
    apply List.ext_getElem? 
    intro i
    by_cases hi : i < xs.length
    · exact h i hi
    · have h1 : xs.length ≤ i := Nat.le_of_not_lt hi
      have h2 : ys.length ≤ i := hl ▸ h1
      rw [List.getElem?_eq_none h1, List.getElem?_eq_none h2]
  · rintro rfl
    exact ⟨rfl, fun _ _ => rfl⟩

/-- For an element type whose `==` is equality, pairwise `==` is pairwise equality. -/
theorem sameElementsBy_iff {T : Type} [BEq T] [LawfulBEq T] (xs ys : List T) :
    SameElementsBy (fun a b => a == b) xs ys ↔ SameElements xs ys := by
  rw [← container_eq_by, container_eq_iff, sameElements_iff]

theorem lexLess_nil_left {T : Type} [LT T] (ys : List T) : LexLess [] ys ↔ ys ≠ [] := by
  unfold LexLess
  cases ys with
  | nil => simp
  | cons b bs => simp

theorem lexLess_nil_right {T : Type} [LT T] (xs : List T) : ¬ LexLess xs [] := by
  unfold LexLess
  simp

theorem lexLess_cons {T : Type} [LinearOrder T] (a b : T) (as bs : List T) :
    LexLess (a :: as) (b :: bs) ↔ a < b ∨ (a = b ∧ LexLess as bs) := by
  unfold LexLess
  constructor
  · rintro (⟨i, u, v, hu, hv, htake, hne, hlt⟩ | ⟨hlen, htake⟩)
    · cases i with
      | zero =>
        simp at hu hv
        subst hu hv
        exact Or.inl hlt
      | succ k =>
        simp at hu hv htake
        exact Or.inr ⟨htake.1, Or.inl ⟨k, u, v, hu, hv, htake.2, hne, hlt⟩⟩
    · simp at hlen htake
      exact Or.inr ⟨htake.1.symm, Or.inr ⟨hlen, htake.2⟩⟩
  · rintro (hlt | ⟨rfl, (⟨i, u, v, hu, hv, htake, hne, hlt⟩ | ⟨hlen, htake⟩)⟩)
    · exact Or.inl ⟨0, a, b, by simp, by simp, by simp, ne_of_lt hlt, hlt⟩
    · exact Or.inl ⟨i + 1, u, v, by simpa using hu, by simpa using hv, by simpa using htake,
        hne, hlt⟩
    · exact Or.inr ⟨by simpa using hlen, by simpa using htake⟩

theorem lexicographical_compare_iff {T : Type} [LinearOrder T] :
    ∀ xs ys : List T,
      lexicographical_compare (fun a b => decide (a < b)) xs ys = true ↔ LexLess xs ys
  | [], [] => by simp [lexicographical_compare, lexLess_nil_right]
  | [], b :: bs => by simp [lexicographical_compare, lexLess_nil_left]
  | a :: as, [] => by simp [lexicographical_compare, lexLess_nil_right]
  | a :: as, b :: bs => by
    have ih := lexicographical_compare_iff as bs
    rw [lexLess_cons]
    simp only [lexicographical_compare, decide_eq_true_eq]
    rcases lt_trichotomy a b with h | h | h
    · simp [h]
    · subst h
      simp [ih]
    · have h1 : ¬ a < b := not_lt_of_gt h
      have h2 : a ≠ b := ne_of_gt h
      simp [h, h1, h2]

theorem lexLess_append_singleton {T : Type} [LinearOrder T] (s : List T) (e : T) :
    LexLess s (s ++ [e]) :=
  Or.inr ⟨by simp, by simp⟩

theorem not_lexLess_append_singleton {T : Type} [LinearOrder T] (s : List T) (e : T) :
    ¬ LexLess (s ++ [e]) s := by
  rintro (⟨i, u, v, hu, hv, _, hne, _⟩ | ⟨hlen, _⟩)
  · have hi : i < s.length := by
      by_contra hcon
      rw [List.getElem?_eq_none (Nat.le_of_not_lt hcon)] at hv
      exact absurd hv (by simp)
    rw [List.getElem?_append_left hi, hv] at hu
    exact hne (Option.some.inj hu).symm
  · simp at hlen

/-- The memory after two queues are constructed from `s` and `e` is pushed onto the second. -/
theorem second_pushed_spec {T : Type} (t : Tid) (a b : Addr) (s : Container T) (e : T)
    (m : Mem T) (hab : a ≠ b) :
    ∃ m1, ts_queue.push t b e
        ((m.store a { c := s, lock := none }).store b { c := s, lock := none })
        = Outcome.ok ((), m1)
      ∧ m1.obj a = { c := s, lock := none } ∧ m1.obj b = { c := s ++ [e], lock := none } := by
  obtain ⟨m1, h1, h1o⟩ := push_ok t b e
    ((m.store a { c := s, lock := none }).store b { c := s, lock := none }) (by simp)
  refine ⟨m1, h1, ?_, ?_⟩
  · simp [h1o, Mem.store, hab]
  · simp [h1o, Mem.store]

/-! ## Frames: what a call leaves as it was -/

theorem bind_ok_inv {T α β : Type} {x : Call T α} {f : α → Call T β} {m m2 : Mem T} {b : β}
    (h : (x >>= f) m = Outcome.ok (b, m2)) :
    ∃ a m1, x m = Outcome.ok (a, m1) ∧ f a m1 = Outcome.ok (b, m2) := by
  simp only [call_bind_apply, Call.bind] at h
  cases hx : x m with
  | ok p => obtain ⟨a, m1⟩ := p; rw [hx] at h; exact ⟨a, m1, rfl, h⟩
  | undefined => rw [hx] at h; cases h
  | relock => rw [hx] at h; cases h
  | blocked => rw [hx] at h; cases h

theorem frames_pure {T α : Type} (a : Addr) (r : α) : Frames a (pure r : Call T α) := by
  intro m r1 m1 h b _
  simp at h
  rw [h.2]

theorem frames_bind {T α β : Type} (a : Addr) (x : Call T α) (f : α → Call T β)
    (hx : Frames a x) (hf : ∀ r, Frames a (f r)) : Frames a (x >>= f) := by
  intro m r m2 h b hb
  obtain ⟨r1, m1, h1, h2⟩ := bind_ok_inv h
  rw [hf r1 m1 r m2 h2 b hb, hx m r1 m1 h1 b hb]

theorem frames_mutex_lock {T : Type} (t : Tid) (a : Addr) :
    Frames a (mutex_lock t a : Call T Unit) := by
  intro m r m1 h b hb
  simp only [mutex_lock] at h
  split at h
  · cases h; simp [Mem.emit, Mem.store, hb]
  · split at h <;> cases h

theorem frames_mutex_unlock {T : Type} (t : Tid) (a : Addr) :
    Frames a (mutex_unlock t a : Call T Unit) := by
  intro m r m1 h b hb
  simp only [mutex_unlock] at h
  split at h
  · cases h; simp [Mem.emit, Mem.store, hb]
  · cases h

theorem frames_read_c {T : Type} (t : Tid) (a : Addr) :
    Frames a (read_c t a : Call T (Container T)) := by
  intro m r m1 h b _
  simp only [read_c] at h
  cases h; simp [Mem.emit]

theorem frames_write_c {T : Type} (t : Tid) (a : Addr) (c : Container T) :
    Frames a (write_c t a c : Call T Unit) := by
  intro m r m1 h b hb
  simp only [write_c] at h
  cases h; simp [Mem.emit, Mem.store, hb]

theorem frames_undefined {T α : Type} (a : Addr) :
    Frames a (undefined_behaviour : Call T α) := by
  intro m r m1 h
  cases h

theorem frames_LOCK_GUARD {T α : Type} (t : Tid) (a : Addr) (body : Call T α)
    (hbody : Frames a body) : Frames a (LOCK_GUARD t a body) := by
  unfold LOCK_GUARD
  exact frames_bind a _ _ (frames_mutex_lock t a) fun _ =>
    frames_bind a _ _ hbody fun _ =>
      frames_bind a _ _ (frames_mutex_unlock t a) fun _ => frames_pure a _

theorem frames_push {T : Type} (t : Tid) (self : Addr) (x : T) :
    Frames self (ts_queue.push t self x) :=
  frames_LOCK_GUARD t self _ (frames_bind self _ _ (frames_read_c t self) fun _ =>
    frames_write_c t self _)

theorem frames_emplace {T Args : Type} (t : Tid) (self : Addr) (mk : Args → T) (args : Args) :
    Frames self (ts_queue.emplace t self mk args) :=
  frames_LOCK_GUARD t self _ (frames_bind self _ _ (frames_read_c t self) fun _ =>
    frames_write_c t self _)

theorem frames_pop {T : Type} (t : Tid) (self : Addr) :
    Frames self (ts_queue.pop t self : Call T Unit) := by
  apply frames_LOCK_GUARD
  apply frames_bind self _ _ (frames_read_c t self)
  intro c
  cases h : Container.pop c with
  | none => simp only []; exact frames_undefined self
  | some rest => simp only []; exact frames_write_c t self rest

theorem frames_call_each {T : Type} (self : Addr) (ops : List (Tid × Op T)) :
    Frames self (call_each self ops) := by
  induction ops with
  | nil => exact frames_pure self ()
  | cons p ops ih =>
    obtain ⟨t, op⟩ := p
    apply frames_bind self _ _ _ fun _ => ih
    cases op with
    | push x => exact frames_push t self x
    | emplace Args mk args => exact frames_emplace t self mk args
    | pop => exact frames_pop t self

/-! ## Storage kept: what an observer leaves as it was -/

theorem keeps_pure {T α : Type} (r : α) : KeepsStorage (pure r : Call T α) := by
  intro m r1 m1 h b
  simp at h
  rw [h.2]

theorem keeps_bind {T α β : Type} (x : Call T α) (f : α → Call T β)
    (hx : KeepsStorage x) (hf : ∀ r, KeepsStorage (f r)) : KeepsStorage (x >>= f) := by
  intro m r m2 h b
  obtain ⟨r1, m1, h1, h2⟩ := bind_ok_inv h
  rw [hf r1 m1 r m2 h2 b, hx m r1 m1 h1 b]

theorem keeps_mutex_lock {T : Type} (t : Tid) (a : Addr) :
    KeepsStorage (mutex_lock t a : Call T Unit) := by
  intro m r m1 h b
  simp only [mutex_lock] at h
  split at h
  · cases h
    by_cases hb : b = a
    · subst hb; simp [Mem.emit, Mem.store]
    · simp [Mem.emit, Mem.store, hb]
  · split at h <;> cases h

theorem keeps_mutex_unlock {T : Type} (t : Tid) (a : Addr) :
    KeepsStorage (mutex_unlock t a : Call T Unit) := by
  intro m r m1 h b
  simp only [mutex_unlock] at h
  split at h
  · cases h
    by_cases hb : b = a
    · subst hb; simp [Mem.emit, Mem.store]
    · simp [Mem.emit, Mem.store, hb]
  · cases h

theorem keeps_read_c {T : Type} (t : Tid) (a : Addr) :
    KeepsStorage (read_c t a : Call T (Container T)) := by
  intro m r m1 h b
  simp only [read_c] at h
  cases h; simp [Mem.emit]

theorem keeps_undefined {T α : Type} : KeepsStorage (undefined_behaviour : Call T α) := by
  intro m r m1 h
  cases h

theorem keeps_LOCK_GUARD {T α : Type} (t : Tid) (a : Addr) (body : Call T α)
    (hbody : KeepsStorage body) : KeepsStorage (LOCK_GUARD t a body) := by
  unfold LOCK_GUARD
  exact keeps_bind _ _ (keeps_mutex_lock t a) fun _ =>
    keeps_bind _ _ hbody fun _ =>
      keeps_bind _ _ (keeps_mutex_unlock t a) fun _ => keeps_pure _

theorem keeps_LOCK_GUARDS {T α : Type} (t : Tid) (x y : Addr) (body : Call T α)
    (hbody : KeepsStorage body) : KeepsStorage (LOCK_GUARDS t x y body) :=
  keeps_LOCK_GUARD t x _ (keeps_LOCK_GUARD t y _ hbody)

theorem keeps_empty {T : Type} (t : Tid) (self : Addr) :
    KeepsStorage (ts_queue.empty t self : Call T Bool) :=
  keeps_LOCK_GUARD t self _ (keeps_bind _ _ (keeps_read_c t self) fun _ => keeps_pure _)

theorem keeps_size {T : Type} (t : Tid) (self : Addr) :
    KeepsStorage (ts_queue.size t self : Call T Nat) :=
  keeps_LOCK_GUARD t self _ (keeps_bind _ _ (keeps_read_c t self) fun _ => keeps_pure _)

theorem keeps_front {T : Type} (t : Tid) (self : Addr) :
    KeepsStorage (ts_queue.front t self : Call T T) := by
  apply keeps_LOCK_GUARD
  apply keeps_bind _ _ (keeps_read_c t self)
  intro c
  cases h : Container.front c with
  | none => simp only []; exact keeps_undefined
  | some x => simp only []; exact keeps_pure x

theorem keeps_back {T : Type} (t : Tid) (self : Addr) :
    KeepsStorage (ts_queue.back t self : Call T T) := by
  apply keeps_LOCK_GUARD
  apply keeps_bind _ _ (keeps_read_c t self)
  intro c
  cases h : Container.back c with
  | none => simp only []; exact keeps_undefined
  | some x => simp only []; exact keeps_pure x

theorem keeps_operator_eq {T : Type} [BEq T] (t : Tid) (x y : Addr) :
    KeepsStorage (operator_eq t x y : Call T Bool) :=
  keeps_LOCK_GUARDS t x y _ (keeps_bind _ _ (keeps_read_c t x) fun _ =>
    keeps_bind _ _ (keeps_read_c t y) fun _ => keeps_pure _)

theorem keeps_operator_lt {T : Type} (lt : T → T → Bool) (t : Tid) (x y : Addr) :
    KeepsStorage (operator_lt lt t x y : Call T Bool) :=
  keeps_LOCK_GUARDS t x y _ (keeps_bind _ _ (keeps_read_c t x) fun _ =>
    keeps_bind _ _ (keeps_read_c t y) fun _ => keeps_pure _)

theorem keeps_operator_ne {T : Type} [BEq T] (t : Tid) (x y : Addr) :
    KeepsStorage (operator_ne t x y : Call T Bool) :=
  keeps_LOCK_GUARDS t x y _ (keeps_bind _ _ (keeps_operator_eq t x y) fun _ => keeps_pure _)

theorem keeps_operator_gt {T : Type} (lt : T → T → Bool) (t : Tid) (x y : Addr) :
    KeepsStorage (operator_gt lt t x y : Call T Bool) :=
  keeps_LOCK_GUARDS t x y _ (keeps_bind _ _ (keeps_operator_lt lt t y x) fun _ => keeps_pure _)

theorem keeps_operator_le {T : Type} (lt : T → T → Bool) (t : Tid) (x y : Addr) :
    KeepsStorage (operator_le lt t x y : Call T Bool) :=
  keeps_LOCK_GUARDS t x y _ (keeps_bind _ _ (keeps_operator_lt lt t y x) fun _ => keeps_pure _)

theorem keeps_operator_ge {T : Type} (lt : T → T → Bool) (t : Tid) (x y : Addr) :
    KeepsStorage (operator_ge lt t x y : Call T Bool) :=
  keeps_LOCK_GUARDS t x y _ (keeps_bind _ _ (keeps_operator_lt lt t x y) fun _ => keeps_pure _)

/-! ## More on single calls -/

theorem back_spec {T : Type} (t : Tid) (self : Addr) (m : Mem T) (y : T)
    (h : (m.obj self).lock = none) (hc : Container.back (m.obj self).c = some y) :
    ts_queue.back t self m = Outcome.ok (y,
      { obj := m.obj,
        log := m.log ++ [Event.acquire t self, Event.access t self, Event.release t self] }) := by
  simp [ts_queue.back, LOCK_GUARD, Call.bind, mutex_lock, mutex_unlock, read_c,
    Mem.store, Mem.emit, h, hc]
  funext b
  split
  · next hb => subst hb; rw [← h]
  · rfl

/-- Comparing an instance with itself locks its guard twice. -/
theorem LOCK_GUARDS_self {T α : Type} (t : Tid) (q : Addr) (body : Call T α) (m : Mem T)
    (h : (m.obj q).lock = none) : LOCK_GUARDS t q q body m = Outcome.relock := by
  simp [LOCK_GUARDS, LOCK_GUARD, Call.bind, mutex_lock, Mem.store, Mem.emit, h]

/-- A call under a guard that is not free returns nothing. -/
theorem LOCK_GUARD_not_free {T α : Type} (t o : Tid) (a : Addr) (body : Call T α) (m : Mem T)
    (h : (m.obj a).lock = some o) : (LOCK_GUARD t a body m).value = none := by
  by_cases ho : o = t <;> simp [LOCK_GUARD, Call.bind, mutex_lock, h, ho, Outcome.value]

theorem size_value {T : Type} (t : Tid) (self : Addr) (m : Mem T) :
    (ts_queue.size t self m).value
      = if (m.obj self).lock = none then some (m.obj self).c.length else none := by
  cases h : (m.obj self).lock with
  | none => simp [size_ok t self m h]
  | some o => simpa using LOCK_GUARD_not_free t o self _ m h

theorem front_value {T : Type} (t : Tid) (self : Addr) (m : Mem T) :
    (ts_queue.front t self m).value
      = if (m.obj self).lock = none then (m.obj self).c.head? else none := by
  cases h : (m.obj self).lock with
  | none =>
    cases hc : (m.obj self).c with
    | nil =>
      simp [ts_queue.front, LOCK_GUARD, Call.bind, mutex_lock, read_c, Mem.store, Mem.emit,
        Container.front, undefined_behaviour, h, hc, Outcome.value]
    | cons x rest => rw [front_spec t self m x rest h hc]; simp [Outcome.value]
  | some o => simpa using LOCK_GUARD_not_free t o self _ m h

theorem back_value {T : Type} (t : Tid) (self : Addr) (m : Mem T) :
    (ts_queue.back t self m).value
      = if (m.obj self).lock = none then (m.obj self).c.getLast? else none := by
  cases h : (m.obj self).lock with
  | none =>
    cases hc : List.getLast? (m.obj self).c with
    | none =>
      simp [ts_queue.back, LOCK_GUARD, Call.bind, mutex_lock, read_c, Mem.store, Mem.emit,
        Container.back, undefined_behaviour, h, hc, Outcome.value]
    | some y => rw [back_spec t self m y h hc]; simp [Outcome.value]
  | some o => simpa using LOCK_GUARD_not_free t o self _ m h

theorem oneLock_of_obj_eq {T α : Type} (self : Addr) (m : Mem T) (x : Call T α) (r : α)
    (es : List Event) (hm : (m.obj self).lock = none)
    (h : x m = Outcome.ok (r, { obj := m.obj, log := m.log ++ es }))
    (ha : acquired es = [self]) (hr : released es = [self]) : OneLock self m x :=
  ⟨r, _, es, h, rfl, ha, hr, hm, fun _ _ => rfl⟩

theorem oneLock_of_store {T α : Type} (self : Addr) (m : Mem T) (x : Call T α) (r : α)
    (es : List Event) (c : Container T)
    (h : x m = Outcome.ok (r,
      { obj := (m.store self { c := c, lock := none }).obj, log := m.log ++ es }))
    (ha : acquired es = [self]) (hr : released es = [self]) : OneLock self m x :=
  ⟨r, _, es, h, rfl, ha, hr, by simp, fun b hb => by simp [Mem.store, hb]⟩

/-! ## The steps of a call and the call -/

theorem effect_apply {T α : Type} (x : Call T α) (m : Mem T) :
    effect x m = match x m with
      | Outcome.ok (_, m1) => Outcome.ok ((), m1)
      | Outcome.undefined => Outcome.undefined
      | Outcome.relock => Outcome.relock
      | Outcome.blocked => Outcome.blocked := by
  simp only [effect, call_bind_apply, Call.bind]
  cases x m <;> rfl

theorem push_atoms_effect {T : Type} (t : Tid) (a : Addr) (x : T) (tmp : Container T)
    (m : Mem T) :
    effect (exec t (push_atoms a x) tmp) m = effect (ts_queue.push t a x) m := by
  cases h : (m.obj a).lock with
  | none =>
    simp [effect, exec, Atom.run, push_atoms, guard_atoms, ts_queue.push, LOCK_GUARD,
      Call.bind, mutex_lock, mutex_unlock, read_c, write_c, Mem.store, Mem.emit, h]
  | some o =>
    by_cases ho : o = t <;>
    simp [effect, exec, Atom.run, push_atoms, guard_atoms, ts_queue.push, LOCK_GUARD,
      Call.bind, mutex_lock, h, ho]

theorem exec_append {T : Type} (t : Tid) (A B : List (Atom T)) :
    ∀ (tmp : Container T) (m : Mem T),
      exec t (A ++ B) tmp m = (exec t A tmp >>= fun tmp1 => exec t B tmp1) m := by
  induction A with
  | nil => intro tmp m; simp [exec, Call.bind]
  | cons atom A ih =>
    intro tmp m
    simp only [List.cons_append, exec, call_bind_apply, Call.bind]
    cases Atom.run t tmp atom m with
    | ok p => obtain ⟨tmp1, m1⟩ := p; simpa [Call.bind] using ih tmp1 m1
    | undefined => rfl
    | relock => rfl
    | blocked => rfl

theorem effect_map {T α β : Type} (x : Call T α) (f : α → β) (m : Mem T) :
    effect (x >>= fun r => pure (f r)) m = effect x m := by
  simp only [effect_apply, call_bind_apply, Call.bind]
  cases x m <;> rfl

/-- The steps of a guarded body do to the memory what the guarded call does. -/
theorem guard_atoms_effect {T α : Type} (t : Tid) (a : Addr) (B : List (Atom T))
    (b : Call T α) (hB : ∀ tmp m, effect (exec t B tmp) m = effect b m)
    (tmp : Container T) (m : Mem T) :
    effect (exec t (guard_atoms a B) tmp) m = effect (LOCK_GUARD t a b) m := by
  simp only [guard_atoms, exec, Atom.run, LOCK_GUARD, effect_apply, call_bind_apply, Call.bind]
  cases hl : mutex_lock t a m with
  | ok p =>
    obtain ⟨u, m1⟩ := p
    have h1 := hB tmp m1
    simp only [effect_apply] at h1
    simp only [call_pure_apply, exec_append, call_bind_apply, Call.bind]
    cases hx : exec t B tmp m1 with
    | ok p1 =>
      obtain ⟨tmp1, m2⟩ := p1
      rw [hx] at h1
      cases hb : b m1 with
      | ok p2 =>
        obtain ⟨r, m3⟩ := p2
        rw [hb] at h1
        cases h1
        simp only [exec, Atom.run, call_bind_apply, Call.bind]
        cases mutex_unlock t a m2 <;> rfl
      | undefined => rw [hb] at h1; cases h1
      | relock => rw [hb] at h1; cases h1
      | blocked => rw [hb] at h1; cases h1
    | undefined => rw [hx] at h1; cases hb : b m1 <;> rw [hb] at h1 <;> first | rfl | cases h1
    | relock => rw [hx] at h1; cases hb : b m1 <;> rw [hb] at h1 <;> first | rfl | cases h1
    | blocked => rw [hx] at h1; cases hb : b m1 <;> rw [hb] at h1 <;> first | rfl | cases h1
  | undefined => rfl
  | relock => rfl
  | blocked => rfl

theorem guards_atoms_effect {T α : Type} (t : Tid) (x y : Addr) (B : List (Atom T))
    (b : Call T α) (hB : ∀ tmp m, effect (exec t B tmp) m = effect b m)
    (tmp : Container T) (m : Mem T) :
    effect (exec t (guards_atoms x y B) tmp) m = effect (LOCK_GUARDS t x y b) m :=
  guard_atoms_effect t x _ _ (guard_atoms_effect t y B b hB) tmp m

theorem two_reads_effect {T α : Type} (t : Tid) (x y : Addr)
    (f : Container T → Container T → α) (tmp : Container T) (m : Mem T) :
    effect (exec t [Atom.read x, Atom.read y] tmp) m
      = effect (do
          let xc ← read_c t x
          let yc ← read_c t y
          pure (f xc yc) : Call T α) m := by
  simp [effect, exec, Atom.run, Call.bind, read_c]

theorem eq_atoms_effect {T : Type} [BEq T] (t : Tid) (x y : Addr) (tmp : Container T)
    (m : Mem T) : effect (exec t (eq_atoms x y) tmp) m = effect (operator_eq t x y) m :=
  guards_atoms_effect t x y _ _ (two_reads_effect t x y Container.eq) tmp m

theorem lt_atoms_effect {T : Type} (lt : T → T → Bool) (t : Tid) (x y : Addr)
    (tmp : Container T) (m : Mem T) :
    effect (exec t (lt_atoms x y) tmp) m = effect (operator_lt lt t x y) m :=
  guards_atoms_effect t x y _ _ (two_reads_effect t x y (Container.lt lt)) tmp m

theorem ne_atoms_effect {T : Type} [BEq T] (t : Tid) (x y : Addr) (tmp : Container T)
    (m : Mem T) : effect (exec t (ne_atoms x y) tmp) m = effect (operator_ne t x y) m :=
  guards_atoms_effect t x y _ _
    (fun tmp1 m1 => (eq_atoms_effect t x y tmp1 m1).trans (effect_map _ _ m1).symm) tmp m

theorem gt_atoms_effect {T : Type} (lt : T → T → Bool) (t : Tid) (x y : Addr)
    (tmp : Container T) (m : Mem T) :
    effect (exec t (gt_atoms x y) tmp) m = effect (operator_gt lt t x y) m :=
  guards_atoms_effect t x y _ _
    (fun tmp1 m1 => (lt_atoms_effect lt t y x tmp1 m1).trans (effect_map _ id m1).symm) tmp m

theorem le_atoms_effect {T : Type} (lt : T → T → Bool) (t : Tid) (x y : Addr)
    (tmp : Container T) (m : Mem T) :
    effect (exec t (le_atoms x y) tmp) m = effect (operator_le lt t x y) m :=
  guards_atoms_effect t x y _ _
    (fun tmp1 m1 => (lt_atoms_effect lt t y x tmp1 m1).trans (effect_map _ _ m1).symm) tmp m

theorem ge_atoms_effect {T : Type} (lt : T → T → Bool) (t : Tid) (x y : Addr)
    (tmp : Container T) (m : Mem T) :
    effect (exec t (ge_atoms x y) tmp) m = effect (operator_ge lt t x y) m :=
  guards_atoms_effect t x y _ _
    (fun tmp1 m1 => (lt_atoms_effect lt t x y tmp1 m1).trans (effect_map _ _ m1).symm) tmp m

/-! ## Steps of threads -/

theorem acquired_by_append (t : Tid) (es fs : List Event) :
    acquired_by t (es ++ fs) = acquired_by t es ++ acquired_by t fs := by
  induction es with
  | nil => rfl
  | cons e es ih =>
    cases e with
    | acquire u a =>
      by_cases hu : u = t <;> simp [acquired_by, hu, ih]
    | release u a => simpa [acquired_by] using ih
    | access u a => simpa [acquired_by] using ih

/-- What a step that can be taken is made of. -/
theorem step_inv {T : Type} {j : Tid} {cfg cfg1 : Config T} (h : step j cfg = some cfg1) :
    ∃ th atom rest tmp1, cfg.threads[j]? = some th ∧ th.todo = atom :: rest
      ∧ Atom.run j th.tmp atom cfg.mem = Outcome.ok (tmp1, cfg1.mem)
      ∧ cfg1.threads = cfg.threads.set j { todo := rest, tmp := tmp1 } := by
  unfold step at h
  cases hth : cfg.threads[j]? with
  | none => rw [hth] at h; cases h
  | some th =>
    rw [hth] at h
    simp only at h
    cases htodo : th.todo with
    | nil => rw [htodo] at h; cases h
    | cons atom rest =>
      rw [htodo] at h
      simp only at h
      cases hrun : Atom.run j th.tmp atom cfg.mem with
      | ok p =>
        obtain ⟨tmp1, m1⟩ := p
        rw [hrun] at h
        simp only [Option.some.injEq] at h
        subst h
        exact ⟨th, atom, rest, tmp1, rfl, htodo, hrun, rfl⟩
      | undefined => rw [hrun] at h; cases h
      | relock => rw [hrun] at h; cases h
      | blocked => rw [hrun] at h; cases h

/-- A step of thread `j` appends one event, which is an acquisition by `j` exactly when the
step locks. -/
theorem atom_run_log {T : Type} {j : Tid} {tmp tmp1 : Container T} {atom : Atom T}
    {m m1 : Mem T} (h : Atom.run j tmp atom m = Outcome.ok (tmp1, m1)) :
    ∃ e, m1.log = m.log ++ [e] ∧ (∀ i, i ≠ j → acquired_by i [e] = [])
      ∧ acquired_by j [e] = (match atom with
          | Atom.lock a => [a]
          | _ => []) := by
  cases atom with
  | lock a =>
    simp only [Atom.run, call_bind_apply, Call.bind, mutex_lock] at h
    cases hl : (m.obj a).lock with
    | none =>
      rw [hl] at h
      simp at h
      refine ⟨Event.acquire j a, ?_, ?_, ?_⟩
      · rw [← h.2]; simp [Mem.emit, Mem.store]
      · intro i hi; simp [acquired_by, Ne.symm hi]
      · simp [acquired_by]
    | some o =>
      rw [hl] at h
      by_cases ho : o = j <;> simp [ho] at h
  | unlock a =>
    simp only [Atom.run, call_bind_apply, Call.bind, mutex_unlock] at h
    by_cases hl : (m.obj a).lock = some j
    · simp [hl] at h
      refine ⟨Event.release j a, ?_, ?_, ?_⟩
      · rw [← h.2]; simp [Mem.emit, Mem.store]
      · intro i _; simp [acquired_by]
      · simp [acquired_by]
    · simp [hl] at h
  | read a =>
    simp only [Atom.run, read_c] at h
    simp at h
    refine ⟨Event.access j a, ?_, ?_, ?_⟩
    · rw [← h.2]; simp [Mem.emit]
    · intro i _; simp [acquired_by]
    · simp [acquired_by]
  | write_push a x =>
    simp only [Atom.run, call_bind_apply, Call.bind, write_c] at h
    simp at h
    refine ⟨Event.access j a, ?_, ?_, ?_⟩
    · rw [← h.2]; simp [Mem.emit, Mem.store]
    · intro i _; simp [acquired_by]
    · simp [acquired_by]

/-- No step of another thread takes a guard away from its owner. -/
theorem atom_run_keeps_owner {T : Type} {i j : Tid} {tmp tmp1 : Container T} {atom : Atom T}
    {m m1 : Mem T} (h : Atom.run j tmp atom m = Outcome.ok (tmp1, m1)) (hij : j ≠ i)
    (b : Addr) (hb : (m.obj b).lock = some i) : (m1.obj b).lock = some i := by
  cases atom with
  | lock a =>
    simp only [Atom.run, call_bind_apply, Call.bind, mutex_lock] at h
    cases hl : (m.obj a).lock with
    | none =>
      rw [hl] at h
      simp at h
      rw [← h.2]
      by_cases hba : b = a
      · subst hba; rw [hl] at hb; cases hb
      · simp [Mem.emit, Mem.store, hba, hb]
    | some o =>
      rw [hl] at h
      by_cases ho : o = j <;> simp [ho] at h
  | unlock a =>
    simp only [Atom.run, call_bind_apply, Call.bind, mutex_unlock] at h
    by_cases hl : (m.obj a).lock = some j
    · simp [hl] at h
      rw [← h.2]
      by_cases hba : b = a
      · subst hba; rw [hl] at hb; exact absurd (Option.some.inj hb) hij
      · simp [Mem.emit, Mem.store, hba, hb]
    · simp [hl] at h
  | read a =>
    simp only [Atom.run, read_c] at h
    simp at h
    rw [← h.2]; simpa [Mem.emit] using hb
  | write_push a x =>
    simp only [Atom.run, call_bind_apply, Call.bind, write_c] at h
    simp at h
    rw [← h.2]
    by_cases hba : b = a
    · subst hba; simpa [Mem.emit, Mem.store] using hb
    · simp [Mem.emit, Mem.store, hba, hb]

theorem lock_run_ok {T : Type} {j : Tid} {tmp tmp1 : Container T} {a : Addr} {m m1 : Mem T}
    (h : Atom.run j tmp (Atom.lock a) m = Outcome.ok (tmp1, m1)) :
    (m.obj a).lock = none ∧ m1.obj a = { c := (m.obj a).c, lock := some j }
      ∧ ∀ b, b ≠ a → m1.obj b = m.obj b := by
  simp only [Atom.run, call_bind_apply, Call.bind, mutex_lock] at h
  cases hl : (m.obj a).lock with
  | none =>
    rw [hl] at h
    simp at h
    refine ⟨rfl, ?_, ?_⟩
    · rw [← h.2]; simp [Mem.emit, Mem.store]
    · intro b hb; rw [← h.2]; simp [Mem.emit, Mem.store, hb]
  | some o =>
    rw [hl] at h
    by_cases ho : o = j <;> simp [ho] at h

theorem step_thread_self {T : Type} {j : Tid} {cfg cfg1 : Config T} {th : Thread T}
    {rest : List (Atom T)} {tmp1 : Container T} (hth : cfg.threads[j]? = some th)
    (hths : cfg1.threads = cfg.threads.set j { todo := rest, tmp := tmp1 }) :
    cfg1.threads[j]? = some { todo := rest, tmp := tmp1 } := by
  rw [hths]
  obtain ⟨hlt, _⟩ := List.getElem?_eq_some.1 hth
  exact List.getElem?_set_self hlt

theorem step_thread_other {T : Type} {i j : Tid} {cfg cfg1 : Config T} {th1 : Thread T}
    (hji : j ≠ i) (hths : cfg1.threads = cfg.threads.set j th1) :
    cfg1.threads[i]? = cfg.threads[i]? := by
  rw [hths]
  exact List.getElem?_set_ne hji

/-- The lock order of a comparison is kept by every step of every thread. -/
theorem orderInv_step {T : Type} (i : Tid) (x y : Addr) (log0 : List Event)
    {cfg cfg1 : Config T} {j : Tid} (hstep : step j cfg = some cfg1)
    (hinv : OrderInv i x y log0 cfg) : OrderInv i x y log0 cfg1 := by
  obtain ⟨thj, atom, rest, tmp1, hthj, htodo, hrun, hths⟩ := step_inv hstep
  obtain ⟨th, es, hth, hlog, hcase⟩ := hinv
  obtain ⟨e, hlog1, hother, hown⟩ := atom_run_log hrun
  have hlog2 : cfg1.mem.log = log0 ++ (es ++ [e]) := by
    rw [hlog1, hlog, List.append_assoc]
  by_cases hji : j = i
  · subst hji
    rw [hth] at hthj
    cases hthj
    refine ⟨_, es ++ [e], step_thread_self hth hths, hlog2, ?_⟩
    rcases hcase with ⟨hacq, R, hR, hshape⟩ | ⟨hacq, hx, R, hR, hshape⟩
      | ⟨hacq, hx, hy, z, R1, hz, hR⟩ | ⟨hacq, hno⟩
    · rw [hR] at htodo
      cases htodo
      obtain ⟨_, h1, _⟩ := lock_run_ok hrun
      refine Or.inr (Or.inl ⟨?_, ?_, R, rfl, hshape⟩)
      · rw [acquired_by_append, hacq, hown]; rfl
      · rw [h1]
    · rw [hR] at htodo
      cases htodo
      obtain ⟨hfree, h1, hoth⟩ := lock_run_ok hrun
      have hxy : x ≠ y := by
        intro hxy
        rw [hxy, hfree] at hx
        cases hx
      have hacq1 : acquired_by j (es ++ [e]) = [x, y] := by
        rw [acquired_by_append, hacq, hown]; rfl
      have hx1 : (cfg1.mem.obj x).lock = some j := by rw [hoth x hxy, hx]
      have hy1 : (cfg1.mem.obj y).lock = some j := by rw [h1]
      rcases hshape with hno | ⟨z, R1, hz, hR1⟩
      · exact Or.inr (Or.inr (Or.inr ⟨hacq1, hno⟩))
      · exact Or.inr (Or.inr (Or.inl ⟨hacq1, hx1, hy1, z, R1, hz, hR1⟩))
    · rw [hR] at htodo
      cases htodo
      obtain ⟨hfree, _, _⟩ := lock_run_ok hrun
      rcases hz with hz | hz
      · rw [hz, hx] at hfree; cases hfree
      · rw [hz, hy] at hfree; cases hfree
    · rw [htodo] at hno
      simp only [List.all_cons, Bool.and_eq_true] at hno
      refine Or.inr (Or.inr (Or.inr ⟨?_, hno.2⟩))
      rw [acquired_by_append, hacq, hown]
      cases atom with
      | lock a => simp [Atom.is_lock] at hno
      | unlock a => rfl
      | read a => rfl
      | write_push a u => rfl
  · have hne : i ≠ j := fun h => hji h.symm
    have hacq : acquired_by i (es ++ [e]) = acquired_by i es := by
      rw [acquired_by_append, hother i hne, List.append_nil]
    refine ⟨th, es ++ [e], by rw [step_thread_other hji hths, hth], hlog2, ?_⟩
    rw [hacq]
    rcases hcase with ⟨hacq0, hR⟩ | ⟨hacq0, hx, hR⟩ | ⟨hacq0, hx, hy, hR⟩ | ⟨hacq0, hno⟩
    · exact Or.inl ⟨hacq0, hR⟩
    · exact Or.inr (Or.inl ⟨hacq0, atom_run_keeps_owner hrun hji x hx, hR⟩)
    · exact Or.inr (Or.inr (Or.inl ⟨hacq0, atom_run_keeps_owner hrun hji x hx,
        atom_run_keeps_owner hrun hji y hy, hR⟩))
    · exact Or.inr (Or.inr (Or.inr ⟨hacq0, hno⟩))

theorem orderInv_run {T : Type} (i : Tid) (x y : Addr) (log0 : List Event) (s : List Tid) :
    ∀ cfg cfg1 : Config T, run s cfg = some cfg1 → OrderInv i x y log0 cfg →
      OrderInv i x y log0 cfg1 := by
  induction s with
  | nil => intro cfg cfg1 h hinv; simp only [run, Option.some.injEq] at h; rw [← h]; exact hinv
  | cons j s ih =>
    intro cfg cfg1 h hinv
    simp only [run] at h
    cases hstep : step j cfg with
    | none => rw [hstep] at h; cases h
    | some cfg2 =>
      rw [hstep] at h
      exact ih cfg2 cfg1 h (orderInv_step i x y log0 hstep hinv)

/-- Each of the six comparisons begins by locking `x`, then `y`, and what follows either locks
nothing or begins by locking one of the two again. -/
theorem comparison_shape {T : Type} (x y : Addr) (P : List (Atom T))
    (hP : P ∈ [eq_atoms x y, lt_atoms x y, ne_atoms x y, gt_atoms x y, le_atoms x y,
      ge_atoms x y]) :
    ∃ R, P = Atom.lock x :: Atom.lock y :: R ∧ LocksAgain x y R := by
  simp only [List.mem_cons, List.mem_singleton, List.not_mem_nil, or_false] at hP
  rcases hP with h | h | h | h | h | h <;> subst h
  · exact ⟨_, rfl, Or.inl rfl⟩
  · exact ⟨_, rfl, Or.inl rfl⟩
  · exact ⟨_, rfl, Or.inr ⟨x, _, Or.inl rfl, rfl⟩⟩
  · exact ⟨_, rfl, Or.inr ⟨y, _, Or.inr rfl, rfl⟩⟩
  · exact ⟨_, rfl, Or.inr ⟨y, _, Or.inr rfl, rfl⟩⟩
  · exact ⟨_, rfl, Or.inr ⟨x, _, Or.inl rfl, rfl⟩⟩

/-- A step that does not write leaves every storage as it was. -/
theorem atom_run_keeps_storage {T : Type} {t : Tid} {tmp tmp1 : Container T} {atom : Atom T}
    {m m1 : Mem T} (h : Atom.run t tmp atom m = Outcome.ok (tmp1, m1))
    (hw : atom.is_write = false) (b : Addr) : (m1.obj b).c = (m.obj b).c := by
  cases atom with
  | lock a =>
    obtain ⟨_, h1, hoth⟩ := lock_run_ok h
    by_cases hb : b = a
    · subst hb; rw [h1]
    · rw [hoth b hb]
  | unlock a =>
    simp only [Atom.run, call_bind_apply, Call.bind, mutex_unlock] at h
    by_cases hl : (m.obj a).lock = some t
    · simp [hl] at h
      rw [← h.2]
      by_cases hb : b = a
      · subst hb; simp [Mem.emit, Mem.store]
      · simp [Mem.emit, Mem.store, hb]
    · simp [hl] at h
  | read a =>
    simp only [Atom.run, read_c] at h
    simp at h
    rw [← h.2]; simp [Mem.emit]
  | write_push a x => simp [Atom.is_write] at hw

theorem run_alone_keeps_storage {T : Type} (t : Tid) (P : List (Atom T))
    (hP : P.all (fun atom => !atom.is_write) = true) :
    ∀ (tmp : Container T) (m : Mem T) (b : Addr),
      ((run_alone t P tmp m).obj b).c = (m.obj b).c := by
  induction P with
  | nil => intro tmp m b; rfl
  | cons atom P ih =>
    intro tmp m b
    simp only [List.all_cons, Bool.and_eq_true, Bool.not_eq_true'] at hP
    simp only [run_alone]
    cases hrun : Atom.run t tmp atom m with
    | ok p =>
      obtain ⟨tmp1, m1⟩ := p
      simp only []
      rw [ih (by simpa using hP.2) tmp1 m1 b, atom_run_keeps_storage hrun hP.1 b]
    | undefined => rfl
    | relock => rfl
    | blocked => rfl

theorem comparison_no_write {T : Type} (x y : Addr) (P : List (Atom T))
    (hP : P ∈ [eq_atoms x y, lt_atoms x y, ne_atoms x y, gt_atoms x y, le_atoms x y,
      ge_atoms x y]) :
    P.all (fun atom => !atom.is_write) = true := by
  simp only [List.mem_cons, List.mem_singleton, List.not_mem_nil, or_false] at hP
  rcases hP with h | h | h | h | h | h <;> subst h <;> rfl

/-! ## Threads that push: no update is lost -/

theorem pending_push_each {T : Type} (a : Addr) (xs : List T) :
    pending (push_each_atoms a xs) = xs := by
  induction xs with
  | nil => rfl
  | cons x xs ih => simp [push_each_atoms, push_atoms, guard_atoms, pending, ih]

theorem push_each_atoms_cons {T : Type} (a : Addr) (x : T) (xs : List T) :
    push_each_atoms a (x :: xs)
      = Atom.lock a :: Atom.read a :: Atom.write_push a x :: Atom.unlock a
          :: push_each_atoms a xs := by
  simp [push_each_atoms, push_atoms, guard_atoms]

/-- Replacing a list by its tail, inside a list of lists, takes its head out of the whole. -/
theorem flatten_set_tail {α : Type} (x : α) (p : List α) :
    ∀ (L : List (List α)) (j : Nat), L[j]? = some (x :: p) →
      List.Perm (x :: (L.set j p).flatten) L.flatten := by
  intro L
  induction L with
  | nil => intro j h; simp at h
  | cons l L ih =>
    intro j h
    cases j with
    | zero =>
      simp at h
      subst h
      simp
    | succ j =>
      simp at h
      simp only [List.set_cons_succ, List.flatten_cons]
      exact (List.perm_middle.symm).trans (List.Perm.append_left l (ih j h))

theorem set_same {α : Type} (v : α) :
    ∀ (L : List α) (j : Nat), L[j]? = some v → L.set j v = L := by
  intro L
  induction L with
  | nil => intro j h; simp at h
  | cons l L ih =>
    intro j h
    cases j with
    | zero => simp at h; subst h; rfl
    | succ j => simp at h; simp [ih j h]

/-- A thread other than the one that steps stood between two calls and still does. -/
theorem pushPhase_other {T : Type} {a : Addr} {q q1 : ts_queue T} {j k : Tid}
    {todo : List (Atom T)} {tmp : Container T} (h : PushPhase a q k todo tmp)
    (hq : q.lock = none ∨ q.lock = some j) (hkj : k ≠ j) (hq1 : q1.lock ≠ some k) :
    PushPhase a q1 k todo tmp := by
  have hk : q.lock ≠ some k := by
    rcases hq with hq | hq
    · rw [hq]; simp
    · rw [hq]; intro e; exact hkj (Option.some.inj e).symm
  cases h with
  | idle xs tmp _ => exact PushPhase.idle xs tmp hq1
  | locked x xs tmp hl => exact absurd hl hk
  | loaded x xs hl => exact absurd hl hk
  | stored xs tmp hl => exact absurd hl hk

theorem pushPhase_inv {T : Type} {a : Addr} {q : ts_queue T} {i : Tid}
    {todo : List (Atom T)} {tmp : Container T} (h : PushPhase a q i todo tmp) :
    (q.lock ≠ some i ∧ ∃ xs, todo = push_each_atoms a xs)
    ∨ (q.lock = some i ∧ ∃ x xs,
        todo = Atom.read a :: Atom.write_push a x :: Atom.unlock a :: push_each_atoms a xs)
    ∨ (q.lock = some i ∧ tmp = q.c ∧ ∃ x xs,
        todo = Atom.write_push a x :: Atom.unlock a :: push_each_atoms a xs)
    ∨ (q.lock = some i ∧ ∃ xs, todo = Atom.unlock a :: push_each_atoms a xs) := by
  cases h with
  | idle xs tmp hl => exact Or.inl ⟨hl, xs, rfl⟩
  | locked x xs tmp hl => exact Or.inr (Or.inl ⟨hl, x, xs, rfl⟩)
  | loaded x xs hl => exact Or.inr (Or.inr (Or.inl ⟨hl, rfl, x, xs, rfl⟩))
  | stored xs tmp hl => exact Or.inr (Or.inr (Or.inr ⟨hl, xs, rfl⟩))

theorem unlock_run_ok {T : Type} {j : Tid} {tmp tmp1 : Container T} {a : Addr} {m m1 : Mem T}
    (h : Atom.run j tmp (Atom.unlock a) m = Outcome.ok (tmp1, m1)) :
    (m.obj a).lock = some j ∧ m1.obj a = { c := (m.obj a).c, lock := none } := by
  simp only [Atom.run, call_bind_apply, Call.bind, mutex_unlock] at h
  by_cases hl : (m.obj a).lock = some j
  · simp [hl] at h
    refine ⟨hl, ?_⟩
    rw [← h.2]; simp [Mem.emit, Mem.store]
  · simp [hl] at h

theorem read_run_ok {T : Type} {j : Tid} {tmp tmp1 : Container T} {a : Addr} {m m1 : Mem T}
    (h : Atom.run j tmp (Atom.read a) m = Outcome.ok (tmp1, m1)) :
    tmp1 = (m.obj a).c ∧ m1.obj = m.obj := by
  simp only [Atom.run, read_c] at h
  simp at h
  exact ⟨h.1.symm, by rw [← h.2]; simp [Mem.emit]⟩

theorem write_run_ok {T : Type} {j : Tid} {tmp tmp1 : Container T} {a : Addr} {x : T}
    {m m1 : Mem T} (h : Atom.run j tmp (Atom.write_push a x) m = Outcome.ok (tmp1, m1)) :
    m1.obj a = { c := tmp ++ [x], lock := (m.obj a).lock } := by
  simp only [Atom.run, call_bind_apply, Call.bind, write_c] at h
  simp at h
  rw [← h.2]; simp [Mem.emit, Mem.store, Container.push]

/-- The invariant after a step of thread `j`, from what the step did to the instance and to
the thread. -/
theorem pushInv_update {T : Type} {a : Addr} {total : List T} {cfg cfg1 : Config T} {j : Tid}
    {thj : Thread T} {rest : List (Atom T)} {tmp1 : Container T}
    (hinv : PushInv a total cfg) (hthj : cfg.threads[j]? = some thj)
    (hths : cfg1.threads = cfg.threads.set j { todo := rest, tmp := tmp1 })
    (hq : (cfg.mem.obj a).lock = none ∨ (cfg.mem.obj a).lock = some j)
    (hq1 : (cfg1.mem.obj a).lock = none ∨ (cfg1.mem.obj a).lock = some j)
    (hnew : PushPhase a (cfg1.mem.obj a) j rest tmp1)
    (hcount : List.Perm ((cfg1.mem.obj a).c
        ++ ((cfg.threads.map fun th => pending th.todo).set j (pending rest)).flatten)
      ((cfg.mem.obj a).c ++ (cfg.threads.map fun th => pending th.todo).flatten)) :
    PushInv a total cfg1 := by
  have hjlt : j < cfg.threads.length := (List.getElem?_eq_some.1 hthj).1
  refine ⟨?_, ?_, ?_⟩
  · intro i th hth
    by_cases hij : i = j
    · subst hij
      rw [step_thread_self hthj hths] at hth
      cases hth
      exact hnew
    · rw [step_thread_other (fun e => hij e.symm) hths] at hth
      refine pushPhase_other (hinv.phase i th hth) hq hij ?_
      rcases hq1 with h1 | h1
      · rw [h1]; simp
      · rw [h1]; intro e; exact hij (Option.some.inj e).symm
  · intro k hk
    rw [hths, List.length_set]
    rcases hq1 with h1 | h1
    · rw [h1] at hk; cases hk
    · rw [h1] at hk; cases hk; exact hjlt
  · rw [hths, List.map_set]
    exact hcount.trans hinv.count

theorem pending_set_same {T : Type} {cfg : Config T} {j : Tid} {thj : Thread T}
    {rest : List (Atom T)} (hthj : cfg.threads[j]? = some thj)
    (hp : pending rest = pending thj.todo) :
    (cfg.threads.map fun th => pending th.todo).set j (pending rest)
      = cfg.threads.map fun th => pending th.todo := by
  apply set_same
  rw [List.getElem?_map, hthj, hp]
  rfl

/-- Every step of every thread keeps the invariant of the pushing threads. -/
theorem pushInv_step {T : Type} {a : Addr} {total : List T} {cfg cfg1 : Config T} {j : Tid}
    (hstep : step j cfg = some cfg1) (hinv : PushInv a total cfg) : PushInv a total cfg1 := by
  obtain ⟨thj, atom, rest, tmp1, hthj, htodo, hrun, hths⟩ := step_inv hstep
  rcases pushPhase_inv (hinv.phase j thj hthj) with ⟨hl, xs, hxs⟩ | ⟨hl, x, xs, hxs⟩
    | ⟨hl, htmp, x, xs, hxs⟩ | ⟨hl, xs, hxs⟩
  · -- between two calls: the step locks the guard
    cases xs with
    | nil => rw [htodo] at hxs; cases hxs
    | cons x xs =>
      rw [push_each_atoms_cons, htodo] at hxs
      cases hxs
      obtain ⟨hfree, h1, _⟩ := lock_run_ok hrun
      refine pushInv_update hinv hthj hths (Or.inl hfree) (Or.inr (by rw [h1])) ?_ ?_
      · exact PushPhase.locked x xs tmp1 (by rw [h1])
      · rw [pending_set_same hthj (by rw [htodo]; rfl), h1]
  · -- the guard is held: the step reads the storage
    rw [htodo] at hxs
    cases hxs
    obtain ⟨ht, hobj⟩ := read_run_ok hrun
    refine pushInv_update hinv hthj hths (Or.inr hl) (Or.inr (by rw [hobj]; exact hl)) ?_ ?_
    · rw [ht, hobj]
      exact PushPhase.loaded x xs (by rw [← hobj] at hl ⊢; exact hl)
    · rw [pending_set_same hthj (by rw [htodo]; rfl), hobj]
  · -- the step writes the storage read, with the element appended
    rw [htodo] at hxs
    cases hxs
    have h1 := write_run_ok hrun
    rw [htmp] at h1
    refine pushInv_update hinv hthj hths (Or.inr hl) (Or.inr (by rw [h1]; exact hl)) ?_ ?_
    · exact PushPhase.stored xs tmp1 (by rw [h1]; exact hl)
    · rw [h1]
      have hj : (cfg.threads.map fun th => pending th.todo)[j]?
          = some (x :: pending (Atom.unlock a :: push_each_atoms a xs)) := by
        rw [List.getElem?_map, hthj]; simp [htodo, pending]
      have hp := flatten_set_tail x _ _ j hj
      simp only [List.append_assoc, List.singleton_append]
      exact List.Perm.append_left _ hp
  · -- the step unlocks the guard
    rw [htodo] at hxs
    cases hxs
    obtain ⟨_, h1⟩ := unlock_run_ok hrun
    refine pushInv_update hinv hthj hths (Or.inr hl) (Or.inl (by rw [h1])) ?_ ?_
    · exact PushPhase.idle xs tmp1 (by rw [h1]; simp)
    · rw [pending_set_same hthj (by rw [htodo]; rfl), h1]

theorem pushInv_run {T : Type} (a : Addr) (total : List T) (s : List Tid) :
    ∀ cfg cfg1 : Config T, run s cfg = some cfg1 → PushInv a total cfg →
      PushInv a total cfg1 := by
  induction s with
  | nil => intro cfg cfg1 h hinv; simp only [run, Option.some.injEq] at h; rw [← h]; exact hinv
  | cons j s ih =>
    intro cfg cfg1 h hinv
    simp only [run] at h
    cases hstep : step j cfg with
    | none => rw [hstep] at h; cases h
    | some cfg2 =>
      rw [hstep] at h
      exact ih cfg2 cfg1 h (pushInv_step hstep hinv)

theorem effect_bind_congr {T α β γ δ : Type} (x : Call T α) (y : Call T β)
    (f : α → Call T γ) (g : β → Call T δ) (m : Mem T)
    (hxy : effect x m = effect y m)
    (hfg : ∀ r r1 m1, effect (f r) m1 = effect (g r1) m1) :
    effect (x >>= f) m = effect (y >>= g) m := by
  simp only [effect_apply] at hxy
  simp only [effect_apply, call_bind_apply, Call.bind]
  cases hx : x m with
  | ok p =>
    obtain ⟨r, m1⟩ := p
    rw [hx] at hxy
    cases hy : y m with
    | ok p1 =>
      obtain ⟨r1, m2⟩ := p1
      rw [hy] at hxy
      cases hxy
      have := hfg r r1 m1
      simpa only [effect_apply] using this
    | undefined => rw [hy] at hxy; cases hxy
    | relock => rw [hy] at hxy; cases hxy
    | blocked => rw [hy] at hxy; cases hxy
  | undefined => rw [hx] at hxy; cases hy : y m <;> rw [hy] at hxy <;> first | rfl | cases hxy
  | relock => rw [hx] at hxy; cases hy : y m <;> rw [hy] at hxy <;> first | rfl | cases hxy
  | blocked => rw [hx] at hxy; cases hy : y m <;> rw [hy] at hxy <;> first | rfl | cases hxy

/-- The steps of a pushing thread, taken with no other thread in between, do what the calls
of `push` do. -/
theorem push_each_atoms_effect {T : Type} (t : Tid) (a : Addr) (xs : List T) :
    ∀ (tmp : Container T) (m : Mem T),
      effect (exec t (push_each_atoms a xs) tmp) m = effect (push_each t a xs) m := by
  induction xs with
  | nil => intro tmp m; rfl
  | cons x xs ih =>
    intro tmp m
    have h1 : exec t (push_each_atoms a (x :: xs)) tmp
        = (exec t (push_atoms a x) tmp >>= fun tmp1 => exec t (push_each_atoms a xs) tmp1) := by
      funext m1
      exact exec_append t _ _ tmp m1
    rw [h1]
    exact effect_bind_congr _ _ _ _ m (push_atoms_effect t a x tmp m) fun r _ m1 => ih r m1

theorem pushInv_start {T : Type} (a : Addr) (xss : List (List T)) (m : Mem T)
    (h : (m.obj a).lock = none) :
    PushInv a ((m.obj a).c ++ xss.flatten)
      { threads := xss.map fun xs => { todo := push_each_atoms a xs, tmp := [] }, mem := m } := by
  refine ⟨?_, ?_, ?_⟩
  · intro i th hth
    simp only [List.getElem?_map] at hth
    cases hx : xss[i]? with
    | none => rw [hx] at hth; cases hth
    | some xs =>
      rw [hx] at hth
      cases hth
      exact PushPhase.idle xs [] (by simp [h])
  · intro j hj
    simp only [h] at hj
    cases hj
  · simp only [List.map_map]
    have : (xss.map ((fun th : Thread T => pending th.todo)
        ∘ fun xs => { todo := push_each_atoms a xs, tmp := [] })) = xss := by
      conv_rhs => rw [← List.map_id xss]
      apply List.map_congr_left
      intro xs _
      simp [pending_push_each]
    rw [this]

theorem finished_iff {T : Type} (cfg : Config T) :
    finished cfg = true ↔ ∀ th ∈ cfg.threads, th.todo = [] := by
  simp [finished, List.isEmpty_iff]

/-- When the pushing threads have finished, the guard is free and nothing is pending. -/
theorem pushInv_finished {T : Type} {a : Addr} {total : List T} {cfg : Config T}
    (hinv : PushInv a total cfg) (hf : finished cfg = true) :
    (cfg.mem.obj a).lock = none ∧ List.Perm (cfg.mem.obj a).c total := by
  rw [finished_iff] at hf
  constructor
  · cases hl : (cfg.mem.obj a).lock with
    | none => rfl
    | some j =>
      have hj := hinv.owner j hl
      have hth : cfg.threads[j]? = some cfg.threads[j] := List.getElem?_eq_getElem hj
      have hnil := hf _ (List.getElem_mem hj)
      rcases pushPhase_inv (hinv.phase j _ hth) with ⟨h, _⟩ | ⟨_, _, _, h⟩ | ⟨_, _, _, _, h⟩
        | ⟨_, _, h⟩
      · exact absurd hl h
      · rw [hnil] at h; cases h
      · rw [hnil] at h; cases h
      · rw [hnil] at h; cases h
  · have hnone : (cfg.threads.map fun th => pending th.todo).flatten = [] := by
      rw [List.flatten_eq_nil_iff]
      intro l hl
      obtain ⟨th, hth, rfl⟩ := List.mem_map.1 hl
      rw [hf th hth]
      rfl
    have := hinv.count
    rwa [hnone, List.append_nil] at this

theorem step_enabled {T : Type} {i : Tid} {cfg : Config T} {th : Thread T} {atom : Atom T}
    {rest : List (Atom T)} (hth : cfg.threads[i]? = some th) (htodo : th.todo = atom :: rest)
    (hrun : ∃ r, Atom.run i th.tmp atom cfg.mem = Outcome.ok r) :
    ∃ cfg1, step i cfg = some cfg1 := by
  obtain ⟨⟨tmp1, m1⟩, hr⟩ := hrun
  exact ⟨{ threads := cfg.threads.set i { todo := rest, tmp := tmp1 }, mem := m1 },
    by simp only [step, hth, htodo, hr]⟩

theorem lock_enabled {T : Type} (i : Tid) (tmp : Container T) (a : Addr) (m : Mem T)
    (h : (m.obj a).lock = none) : ∃ r, Atom.run i tmp (Atom.lock a) m = Outcome.ok r :=
  ⟨_, by simp [Atom.run, Call.bind, mutex_lock, h]; rfl⟩

theorem unlock_enabled {T : Type} (i : Tid) (tmp : Container T) (a : Addr) (m : Mem T)
    (h : (m.obj a).lock = some i) : ∃ r, Atom.run i tmp (Atom.unlock a) m = Outcome.ok r :=
  ⟨_, by simp [Atom.run, Call.bind, mutex_unlock, h]; rfl⟩

theorem read_enabled {T : Type} (i : Tid) (tmp : Container T) (a : Addr) (m : Mem T) :
    ∃ r, Atom.run i tmp (Atom.read a) m = Outcome.ok r :=
  ⟨_, rfl⟩

theorem write_enabled {T : Type} (i : Tid) (tmp : Container T) (a : Addr) (x : T)
    (m : Mem T) : ∃ r, Atom.run i tmp (Atom.write_push a x) m = Outcome.ok r :=
  ⟨_, by simp [Atom.run, Call.bind, write_c]; rfl⟩

/-- While a pushing thread has steps left, some thread can take a step. -/
theorem pushInv_progress {T : Type} {a : Addr} {total : List T} {cfg : Config T}
    (hinv : PushInv a total cfg) (hf : finished cfg = false) :
    ∃ i cfg1, step i cfg = some cfg1 := by
  cases hl : (cfg.mem.obj a).lock with
  | none =>
    simp only [finished, List.all_eq_false] at hf
    obtain ⟨th, hmem, hne⟩ := hf
    obtain ⟨i, hi, hget⟩ := List.getElem_of_mem hmem
    have hth : cfg.threads[i]? = some th := by rw [List.getElem?_eq_getElem hi, hget]
    rcases pushPhase_inv (hinv.phase i th hth) with ⟨_, xs, hxs⟩ | ⟨h, _⟩ | ⟨h, _⟩ | ⟨h, _⟩
    · cases xs with
      | nil => rw [hxs] at hne; simp [push_each_atoms] at hne
      | cons x xs =>
        rw [push_each_atoms_cons] at hxs
        exact ⟨i, step_enabled hth hxs (lock_enabled i _ a _ hl)⟩
    · rw [hl] at h; cases h
    · rw [hl] at h; cases h
    · rw [hl] at h; cases h
  | some j =>
    have hj := hinv.owner j hl
    have hth : cfg.threads[j]? = some cfg.threads[j] := List.getElem?_eq_getElem hj
    rcases pushPhase_inv (hinv.phase j _ hth) with ⟨h, _⟩ | ⟨_, x, xs, hxs⟩
      | ⟨_, _, x, xs, hxs⟩ | ⟨_, xs, hxs⟩
    · exact absurd hl h
    · exact ⟨j, step_enabled hth hxs (read_enabled j _ a _)⟩
    · exact ⟨j, step_enabled hth hxs (write_enabled j _ a x _)⟩
    · exact ⟨j, step_enabled hth hxs (unlock_enabled j _ a _ hl)⟩

theorem step_measure {T : Type} {j : Tid} {cfg cfg1 : Config T}
    (hstep : step j cfg = some cfg1) :
    (cfg.threads.map fun th => th.todo).flatten.length
      = (cfg1.threads.map fun th => th.todo).flatten.length + 1 := by
  obtain ⟨thj, atom, rest, tmp1, hthj, htodo, _, hths⟩ := step_inv hstep
  have hj : (cfg.threads.map fun th => th.todo)[j]? = some (atom :: rest) := by
    rw [List.getElem?_map, hthj]; simp [htodo]
  have hp := flatten_set_tail atom rest _ j hj
  rw [hths, List.map_set, ← hp.length_eq]
  rfl

/-- From every moment on, the pushing threads can all finish. -/
theorem pushInv_completes {T : Type} (a : Addr) (total : List T) (n : Nat) :
    ∀ cfg : Config T, PushInv a total cfg →
      (cfg.threads.map fun th => th.todo).flatten.length = n →
      ∃ s cfg1, run s cfg = some cfg1 ∧ finished cfg1 = true := by
  induction n with
  | zero =>
    intro cfg hinv hn
    cases hf : finished cfg with
    | true => exact ⟨[], cfg, rfl, hf⟩
    | false =>
      obtain ⟨i, cfg1, hstep⟩ := pushInv_progress hinv hf
      have := step_measure hstep
      omega
  | succ n ih =>
    intro cfg hinv hn
    cases hf : finished cfg with
    | true => exact ⟨[], cfg, rfl, hf⟩
    | false =>
      obtain ⟨i, cfg1, hstep⟩ := pushInv_progress hinv hf
      have hm := step_measure hstep
      obtain ⟨s, cfg2, hrun, hfin⟩ := ih cfg1 (pushInv_step hstep hinv) (by omega)
      exact ⟨i :: s, cfg2, by simp [run, hstep, hrun], hfin⟩

/-! ## The claims -/

/-- C1 (FIFO order): for every list `xs`, starting from a default-constructed queue, pushing
the elements of `xs` in order and then, `|xs|` times, reading `front()` and calling `pop()`
returns, and the values read by `front()` are exactly `xs`, in the same order. -/
theorem C1_fifo_order {T : Type} (t : Tid) (self : Addr) (xs : List T) (m : Mem T) :
    ((do
        ts_queue.ctor self
        push_each t self xs
        front_pop_each t self xs.length : Call T (List T)) m).value = some xs := by
  obtain ⟨ma, ha, hao⟩ := push_each_spec t self xs (m.store self { c := [], lock := none })
    (by simp)
  obtain ⟨mb, hb, _⟩ := front_pop_each_spec t self xs.length ma (by simp [hao])
    (by simp [hao])
  rw [seq_of_ok (ctor_spec self m), seq_of_ok ha, hb]
  simp [Outcome.value, hao]

/-- C2 (push increases the size by one): on every queue whose guard is free, `push(x)` returns
and `size()` afterwards is `size()` before plus one; a default-constructed queue has size 0,
and after pushing the `n` elements of any list its size is `n`. -/
theorem C2_push_increases_size {T : Type} (t : Tid) (self : Addr) (x : T) (m : Mem T)
    (h : (m.obj self).lock = none) :
    (∃ m1 n, ts_queue.push t self x m = Outcome.ok ((), m1)
        ∧ (ts_queue.size t self m).value = some n
        ∧ (ts_queue.size t self m1).value = some (n + 1))
    ∧ (∀ m0 : Mem T, ((do
          ts_queue.ctor self
          ts_queue.size t self : Call T Nat) m0).value = some 0)
    ∧ (∀ (m0 : Mem T) (xs : List T), ((do
          ts_queue.ctor self
          push_each t self xs
          ts_queue.size t self : Call T Nat) m0).value = some xs.length) := by
  refine ⟨?_, ?_, ?_⟩
  · obtain ⟨m1, h1, h1o⟩ := push_ok t self x m h
    refine ⟨m1, (m.obj self).c.length, h1, size_ok t self m h, ?_⟩
    rw [size_ok t self m1 (by simp [h1o])]
    simp [h1o]
  · intro m0
    rw [seq_of_ok (ctor_spec self m0), size_ok _ _ _ (by simp)]
    simp
  · intro m0 xs
    obtain ⟨ma, ha, hao⟩ := push_each_spec t self xs (m0.store self { c := [], lock := none })
      (by simp)
    rw [seq_of_ok (ctor_spec self m0), seq_of_ok ha, size_ok _ _ _ (by simp [hao])]
    simp [hao]

/-- C2 at a concrete input: thread 0 pushes 7 onto the queue `[4]` at address 0. -/
theorem C2_push_increases_size_witness :
    ∃ m1 n, ts_queue.push 0 0 (7 : Nat) (Mem.store Mem.fresh 0 { c := [4], lock := none })
          = Outcome.ok ((), m1)
        ∧ (ts_queue.size 0 0 (Mem.store (Mem.fresh : Mem Nat) 0 { c := [4], lock := none })).value
          = some n
        ∧ (ts_queue.size 0 0 m1).value = some (n + 1) :=
  (C2_push_increases_size 0 0 (7 : Nat) (Mem.store Mem.fresh 0 { c := [4], lock := none })
    rfl).1

/-- C3 (pop removes the front element): on every non-empty queue whose guard is free, `pop()`
returns, `size()` afterwards is `size()` before minus one, and the elements before the call
are the element `front()` returned followed by the elements left, in unchanged order. -/
theorem C3_pop_removes_front {T : Type} (t : Tid) (self : Addr) (m : Mem T)
    (h : (m.obj self).lock = none) (hne : (m.obj self).c ≠ []) :
    ∃ m1 n x, ts_queue.pop t self m = Outcome.ok ((), m1)
      ∧ (ts_queue.size t self m).value = some (n + 1)
      ∧ (ts_queue.size t self m1).value = some n
      ∧ (ts_queue.front t self m).value = some x
      ∧ (m.obj self).c = x :: (m1.obj self).c := by
  cases hc : (m.obj self).c with
  | nil => exact absurd hc hne
  | cons x rest =>
    obtain ⟨m1, h1, h1o⟩ := pop_ok t self m x rest h hc
    refine ⟨m1, rest.length, x, h1, ?_, ?_, ?_, ?_⟩
    · rw [size_ok t self m h, hc]; simp
    · rw [size_ok t self m1 (by simp [h1o])]; simp [h1o]
    · rw [front_spec t self m x rest h hc]; rfl
    · simp [h1o]

/-- C3 at a concrete input: thread 0 pops the queue `[1, 2, 3]` at address 0, leaving
`[2, 3]`. -/
theorem C3_pop_removes_front_witness :
    ∃ m1 n x, ts_queue.pop 0 0 (Mem.store Mem.fresh 0 { c := [1, 2, 3], lock := none })
        = Outcome.ok ((), m1)
      ∧ (ts_queue.size 0 0 (Mem.store Mem.fresh 0 { c := [1, 2, 3], lock := none })).value
        = some (n + 1)
      ∧ (ts_queue.size 0 0 m1).value = some n
      ∧ (ts_queue.front 0 0 (Mem.store Mem.fresh 0 { c := [1, 2, 3], lock := none })).value
        = some x
      ∧ [1, 2, 3] = x :: (m1.obj 0).c :=
  C3_pop_removes_front 0 0 (Mem.store Mem.fresh 0 { c := [1, 2, 3], lock := none })
    rfl (by simp [Mem.store])

/-- C4 (round trip): a default-constructed queue is empty; after pushing the `N` elements of
any list, `empty()` is false when `N > 0`; after `N` further `pop` calls `empty()` is true and
`size()` is 0. -/
theorem C4_round_trip {T : Type} (t : Tid) (self : Addr) (xs : List T) (m : Mem T) :
    ((do
        ts_queue.ctor self
        ts_queue.empty t self : Call T Bool) m).value = some true
    ∧ (0 < xs.length → ((do
        ts_queue.ctor self
        push_each t self xs
        ts_queue.empty t self : Call T Bool) m).value = some false)
    ∧ ((do
        ts_queue.ctor self
        push_each t self xs
        pop_each t self xs.length
        ts_queue.empty t self : Call T Bool) m).value = some true
    ∧ ((do
        ts_queue.ctor self
        push_each t self xs
        pop_each t self xs.length
        ts_queue.size t self : Call T Nat) m).value = some 0 := by
  obtain ⟨ma, ha, hao⟩ := push_each_spec t self xs (m.store self { c := [], lock := none })
    (by simp)
  obtain ⟨mb, hb, hbo⟩ := pop_each_spec t self xs.length ma (by simp [hao]) (by simp [hao])
  refine ⟨?_, ?_, ?_, ?_⟩
  · rw [seq_of_ok (ctor_spec self m), empty_ok _ _ _ (by simp)]
    simp
  · intro hpos
    rw [seq_of_ok (ctor_spec self m), seq_of_ok ha, empty_ok _ _ _ (by simp [hao])]
    cases xs with
    | nil => simp at hpos
    | cons x xs => simp [hao]
  · rw [seq_of_ok (ctor_spec self m), seq_of_ok ha, seq_of_ok hb,
      empty_ok _ _ _ (by simp [hbo])]
    simp [hbo, hao]
  · rw [seq_of_ok (ctor_spec self m), seq_of_ok ha, seq_of_ok hb,
      size_ok _ _ _ (by simp [hbo])]
    simp [hbo, hao]

/-- C4 at a concrete input: after three pushes onto a default-constructed queue, `empty()` is
false. -/
theorem C4_round_trip_witness :
    ((do
        ts_queue.ctor 0
        push_each 0 0 [1, 1, 1]
        ts_queue.empty 0 0 : Call Nat Bool) Mem.fresh).value = some false :=
  (C4_round_trip 0 0 [1, 1, 1] Mem.fresh).2.1 (by decide)

/-- C5 (empty iff size zero): in every state of an instance reachable from any constructor by
`push`, `emplace` and `pop` calls that respect the precondition, `empty()` and `size()` both
return, and `empty()` is true exactly when `size()` is 0. -/
theorem C5_empty_iff_size_zero {T : Type} (self : Addr) (m : Mem T) (h : Reachable self m)
    (t : Tid) :
    ∃ b n, (ts_queue.empty t self m).value = some b
      ∧ (ts_queue.size t self m).value = some n
      ∧ (b = true ↔ n = 0) := by
  have hfree := reachable_guard_free self m h
  refine ⟨_, _, empty_ok t self m hfree, size_ok t self m hfree, ?_⟩
  simp [List.isEmpty_iff]

/-- C5 at a concrete input: the queue at address 0 after its default construction and one
`push(5)`. -/
theorem C5_empty_iff_size_zero_witness :
    ∃ m : Mem Nat, (m.obj 0).c = [5] ∧ ∃ b n, (ts_queue.empty 0 0 m).value = some b
      ∧ (ts_queue.size 0 0 m).value = some n
      ∧ (b = true ↔ n = 0) :=
  ⟨_, rfl, C5_empty_iff_size_zero 0 _
    (Reachable.push 0 5 _ _ (Reachable.ctor Mem.fresh _ rfl) (push_spec 0 0 5 _ rfl)) 0⟩

/-- C6 (comparison identities), evaluated on the code: whatever the memory, the calling thread
and the operands, none of the four derived operators `!=`, `>`, `<=`, `>=` returns a value.
Each holds both guards when it calls `operator==` or `operator<`, which locks a guard the
calling thread then owns; when a guard is owned by another thread the call waits instead. -/
theorem C6_derived_operators_return_nothing {T : Type} [BEq T] (lt : T → T → Bool)
    (t : Tid) (x y : Addr) (m : Mem T) :
    (operator_ne t x y m = Outcome.relock ∨ operator_ne t x y m = Outcome.blocked)
    ∧ (operator_gt lt t x y m = Outcome.relock ∨ operator_gt lt t x y m = Outcome.blocked)
    ∧ (operator_le lt t x y m = Outcome.relock ∨ operator_le lt t x y m = Outcome.blocked)
    ∧ (operator_ge lt t x y m = Outcome.relock ∨ operator_ge lt t x y m = Outcome.blocked) :=
  ⟨operator_ne_stuck t x y m, operator_gt_stuck lt t x y m, operator_le_stuck lt t x y m,
    operator_ge_stuck lt t x y m⟩

/-- C7 (two locks per comparison), evaluated on the code: for two distinct instances whose
guards are free, `operator==` and `operator<` acquire the guard of `x`, then the guard of `y`,
nothing else, and return with the memory as it was, both guards free; each of `!=`, `>`, `<=`,
`>=` ends by locking a guard the calling thread already holds and returns nothing. -/
theorem C7_comparison_locks {T : Type} [BEq T] (lt : T → T → Bool) (t : Tid) (x y : Addr)
    (m : Mem T) (hxy : x ≠ y) (hx : (m.obj x).lock = none) (hy : (m.obj y).lock = none) :
    (∃ r m1 es, operator_eq t x y m = Outcome.ok (r, m1) ∧ m1.obj = m.obj
        ∧ m1.log = m.log ++ es ∧ acquired es = [x, y])
    ∧ (∃ r m1 es, operator_lt lt t x y m = Outcome.ok (r, m1) ∧ m1.obj = m.obj
        ∧ m1.log = m.log ++ es ∧ acquired es = [x, y])
    ∧ operator_ne t x y m = Outcome.relock
    ∧ operator_gt lt t x y m = Outcome.relock
    ∧ operator_le lt t x y m = Outcome.relock
    ∧ operator_ge lt t x y m = Outcome.relock :=
  ⟨⟨_, _, _, operator_eq_spec t x y m hxy hx hy, rfl, rfl, rfl⟩,
    ⟨_, _, _, operator_lt_spec lt t x y m hxy hx hy, rfl, rfl, rfl⟩,
    operator_ne_relock t x y m hxy hx hy, operator_gt_relock lt t x y m hxy hx hy,
    operator_le_relock lt t x y m hxy hx hy, operator_ge_relock lt t x y m hxy hx hy⟩

/-- C7 at a concrete input: thread 0 compares the empty queues at addresses 0 and 1 with
`!=`. -/
theorem C7_comparison_locks_witness :
    operator_ne 0 0 1 (Mem.fresh : Mem Nat) = Outcome.relock :=
  (C7_comparison_locks (fun a b => decide (a < b)) 0 0 1 (Mem.fresh : Mem Nat)
    (by decide) rfl rfl).2.2.1

/-- C8 (equality), evaluated on the code: `operator==` is a function template at namespace
scope whose body names the private data members `lock` and `c` of its operands, and the class
declares no friend, so the operator cannot be instantiated: there is no call, and nothing is
returned. Had the class declared the operator a friend, the call would be the body as written,
which does what the claim says: for two distinct instances whose guards are free it returns,
and returns true exactly when the two queues have the same size and pairwise equal elements in
order, equal by the `==` of the element type; and when every element is `==` to itself, two
queues constructed from the same backing sequence compare equal. -/
theorem C8_operator_eq {T : Type} [BEq T] (t : Tid) (x y : Addr) :
    comparison_for ts_queue.befriends Comparison.eq (operator_eq t x y : Call T Bool) = none
    ∧ (∀ befriends : Comparison → Bool, befriends Comparison.eq = true →
        comparison_for befriends Comparison.eq (operator_eq t x y : Call T Bool)
          = some (operator_eq t x y))
    ∧ (∀ m : Mem T, x ≠ y → (m.obj x).lock = none → (m.obj y).lock = none →
        ∃ r m1, operator_eq t x y m = Outcome.ok (r, m1)
          ∧ (r = true ↔ SameElementsBy (fun a b => a == b) (m.obj x).c (m.obj y).c))
    ∧ ((∀ a : T, (a == a) = true) → x ≠ y → ∀ (s : Container T) (m0 : Mem T), ((do
          ts_queue.ctor_container x s
          ts_queue.ctor_container y s
          operator_eq t x y : Call T Bool) m0).value = some true) := by
  refine ⟨rfl, ?_, ?_, ?_⟩
  · intro befriends hb
    simp [comparison_for, hb]
  · intro m hxy hx hy
    exact ⟨_, _, operator_eq_spec t x y m hxy hx hy, container_eq_by _ _⟩
  · intro hrefl hxy s m0
    rw [seq_of_ok (ctor_container_spec x s m0), seq_of_ok (ctor_container_spec y s _),
      operator_eq_spec t x y _ hxy (by simp [Mem.store, hxy]) (by simp [Mem.store])]
    simp [Outcome.value, Mem.store, hxy, Container.eq, std_equal_self hrefl]

/-- C8 at a concrete input: thread 0 compares the queues at addresses 0 and 1 with `==`. As
shipped there is no call; the body as written, run on the queues `[1, 2]` and `[1, 3]`,
returns false. -/
theorem C8_operator_eq_witness :
    comparison_for ts_queue.befriends Comparison.eq (operator_eq 0 0 1 : Call Nat Bool) = none
    ∧ (operator_eq 0 0 1
        ((Mem.store (Mem.fresh : Mem Nat) 0 { c := [1, 2], lock := none }).store 1
          { c := [1, 3], lock := none })).value = some false :=
  ⟨(C8_operator_eq 0 0 1).1, rfl⟩

/-- C9 (ordering), evaluated on the code: `operator<` is a function template at namespace
scope whose body names the private data members `lock` and `c` of its operands, and the class
declares no friend, so the operator cannot be instantiated: there is no call, and nothing is
returned. Had the class declared the operator a friend, the call would be the body as written:
for two distinct instances whose guards are free it returns the
`std::lexicographical_compare` of the two element sequences by the `<` of the element type,
and for linearly ordered elements that is true exactly when the sequence of `x` is
lexicographically less than that of `y`: the first differing position decides, and a proper
beginning of a sequence is less than the sequence. -/
theorem C9_operator_lt {T : Type} (lt : T → T → Bool) (t : Tid) (x y : Addr) :
    comparison_for ts_queue.befriends Comparison.lt (operator_lt lt t x y : Call T Bool) = none
    ∧ (∀ befriends : Comparison → Bool, befriends Comparison.lt = true →
        comparison_for befriends Comparison.lt (operator_lt lt t x y : Call T Bool)
          = some (operator_lt lt t x y))
    ∧ (∀ m : Mem T, x ≠ y → (m.obj x).lock = none → (m.obj y).lock = none →
        ∃ m1, operator_lt lt t x y m
          = Outcome.ok (lexicographical_compare lt (m.obj x).c (m.obj y).c, m1))
    ∧ (∀ [LinearOrder T] (m : Mem T), x ≠ y → (m.obj x).lock = none → (m.obj y).lock = none →
        ∃ r m1, operator_lt (fun a b => decide (a < b)) t x y m = Outcome.ok (r, m1)
          ∧ (r = true ↔ LexLess (m.obj x).c (m.obj y).c)) := by
  refine ⟨rfl, ?_, ?_, ?_⟩
  · intro befriends hb
    simp [comparison_for, hb]
  · intro m hxy hx hy
    exact ⟨_, operator_lt_spec lt t x y m hxy hx hy⟩
  · intro _ m hxy hx hy
    exact ⟨_, _, operator_lt_spec _ t x y m hxy hx hy, by
      unfold Container.lt; exact lexicographical_compare_iff _ _⟩

/-- C9 at a concrete input: thread 0 compares the queues at addresses 0 and 1 with `<`. As
shipped there is no call; the body as written, run on the queues `[1, 2]` and `[1, 3]`,
returns true. -/
theorem C9_operator_lt_witness :
    comparison_for ts_queue.befriends Comparison.lt
        (operator_lt (fun a b => decide (a < b)) 0 0 1 : Call Nat Bool) = none
    ∧ (operator_lt (fun a b => decide (a < b)) 0 0 1
        ((Mem.store (Mem.fresh : Mem Nat) 0 { c := [1, 2], lock := none }).store 1
          { c := [1, 3], lock := none })).value = some true :=
  ⟨(C9_operator_lt (fun a b => decide (a < b)) 0 0 1).1, rfl⟩

/-- C10 (one more element), evaluated on the code: when `A` and `B` are both constructed from
`s` and `e` is then pushed onto `B` only, `A == B` returns false, `A < B` returns true and
`B < A` returns false, but `A != B` returns nothing: it ends by locking a guard the calling
thread already holds. The elements are linearly ordered. -/
theorem C10_one_more_element {T : Type} [LinearOrder T] (t : Tid) (a b : Addr)
    (s : Container T) (e : T) (m : Mem T) (hab : a ≠ b) :
    ((do
        ts_queue.ctor_container a s
        ts_queue.ctor_container b s
        ts_queue.push t b e
        operator_eq t a b : Call T Bool) m).value = some false
    ∧ ((do
        ts_queue.ctor_container a s
        ts_queue.ctor_container b s
        ts_queue.push t b e
        operator_lt (fun u v => decide (u < v)) t a b : Call T Bool) m).value = some true
    ∧ ((do
        ts_queue.ctor_container a s
        ts_queue.ctor_container b s
        ts_queue.push t b e
        operator_lt (fun u v => decide (u < v)) t b a : Call T Bool) m).value = some false
    ∧ (do
        ts_queue.ctor_container a s
        ts_queue.ctor_container b s
        ts_queue.push t b e
        operator_ne t a b : Call T Bool) m = Outcome.relock := by
  have hba : b ≠ a := fun h => hab h.symm
  obtain ⟨m1, h1, h1a, h1b⟩ := second_pushed_spec t a b s e m hab
  have hfa : (m1.obj a).lock = none := by rw [h1a]
  have hfb : (m1.obj b).lock = none := by rw [h1b]
  refine ⟨?_, ?_, ?_, ?_⟩
  · rw [seq_of_ok (ctor_container_spec a s m), seq_of_ok (ctor_container_spec b s _),
      seq_of_ok h1, operator_eq_spec t a b m1 hab hfa hfb, h1a, h1b]
    have hne : Container.eq s (s ++ [e]) = false := by
      rw [← Bool.not_eq_true, container_eq_iff]
      intro h
      have := congrArg List.length h
      simp at this
    simp [Outcome.value, hne]
  · rw [seq_of_ok (ctor_container_spec a s m), seq_of_ok (ctor_container_spec b s _),
      seq_of_ok h1, operator_lt_spec _ t a b m1 hab hfa hfb, h1a, h1b]
    simp [Outcome.value, Container.lt, lexicographical_compare_iff,
      lexLess_append_singleton]
  · rw [seq_of_ok (ctor_container_spec a s m), seq_of_ok (ctor_container_spec b s _),
      seq_of_ok h1, operator_lt_spec _ t b a m1 hba hfb hfa, h1a, h1b]
    have hno := not_lexLess_append_singleton s e
    rw [← lexicographical_compare_iff] at hno
    simp [Outcome.value, Container.lt, hno]
  · rw [seq_of_ok (ctor_container_spec a s m), seq_of_ok (ctor_container_spec b s _),
      seq_of_ok h1]
    exact operator_ne_relock t a b m1 hab hfa hfb

/-- C10 at a concrete input: thread 0 builds two queues from `[1, 2]` at addresses 0 and 1,
pushes 3 onto the second and evaluates `A != B`. -/
theorem C10_one_more_element_witness :
    (do
        ts_queue.ctor_container 0 [1, 2]
        ts_queue.ctor_container 1 [1, 2]
        ts_queue.push 0 1 3
        operator_ne 0 0 1 : Call Nat Bool) Mem.fresh = Outcome.relock :=
  (C10_one_more_element 0 0 1 [1, 2] 3 (Mem.fresh : Mem Nat) (by decide)).2.2.2

/-- C11 (copy construction): the copy of `src` built at another address holds the contents of
`src` at the moment of the copy and leaves `src` as it was; afterwards every sequence of
`push`, `emplace` and `pop` calls on the copy that returns leaves `src` unchanged, so that
`size()`, `front()` and `back()` of `src` return what they returned before, and the same holds
with the two instances exchanged. -/
theorem C11_copy_is_independent {T : Type} (t : Tid) (dst src : Addr) (m : Mem T)
    (h : dst ≠ src) :
    (∃ m1, ts_queue.ctor_copy t dst src m = Outcome.ok ((), m1)
        ∧ (m1.obj dst).c = (m.obj src).c ∧ m1.obj src = m.obj src)
    ∧ (∀ (ops : List (Tid × Op T)) (u : Tid) (m2 m3 : Mem T),
        call_each dst ops m2 = Outcome.ok ((), m3) →
          m3.obj src = m2.obj src
          ∧ (ts_queue.size u src m3).value = (ts_queue.size u src m2).value
          ∧ (ts_queue.front u src m3).value = (ts_queue.front u src m2).value
          ∧ (ts_queue.back u src m3).value = (ts_queue.back u src m2).value)
    ∧ (∀ (ops : List (Tid × Op T)) (u : Tid) (m2 m3 : Mem T),
        call_each src ops m2 = Outcome.ok ((), m3) →
          m3.obj dst = m2.obj dst
          ∧ (ts_queue.size u dst m3).value = (ts_queue.size u dst m2).value
          ∧ (ts_queue.front u dst m3).value = (ts_queue.front u dst m2).value
          ∧ (ts_queue.back u dst m3).value = (ts_queue.back u dst m2).value) := by
  have hsd : src ≠ dst := fun e => h e.symm
  refine ⟨⟨_, rfl, ?_, ?_⟩, ?_, ?_⟩
  · simp [Mem.store, Mem.emit]
  · simp [Mem.store, Mem.emit, hsd]
  · intro ops u m2 m3 hrun
    have hobj := frames_call_each dst ops m2 () m3 hrun src hsd
    exact ⟨hobj, by rw [size_value, size_value, hobj], by rw [front_value, front_value, hobj],
      by rw [back_value, back_value, hobj]⟩
  · intro ops u m2 m3 hrun
    have hobj := frames_call_each src ops m2 () m3 hrun dst h
    exact ⟨hobj, by rw [size_value, size_value, hobj], by rw [front_value, front_value, hobj],
      by rw [back_value, back_value, hobj]⟩

/-- C11 at a concrete input: thread 0 pushes 3 onto the copy, at address 1, of the queue
`[1, 2]` at address 0; the source is as it was. -/
theorem C11_copy_is_independent_witness :
    ts_queue.ctor_copy 0 1 0 (Mem.store (Mem.fresh : Mem Nat) 0 { c := [1, 2], lock := none })
        = Outcome.ok ((), Mem.store (Mem.emit (Mem.store (Mem.fresh : Mem Nat) 0
            { c := [1, 2], lock := none }) (Event.access 0 0)) 1 { c := [1, 2], lock := none })
    ∧ ∃ m3 : Mem Nat,
      call_each 1 [(0, Op.push 3)] (Mem.store (Mem.emit (Mem.store (Mem.fresh : Mem Nat) 0
            { c := [1, 2], lock := none }) (Event.access 0 0)) 1 { c := [1, 2], lock := none })
        = Outcome.ok ((), m3)
      ∧ (m3.obj 1).c = [1, 2, 3]
      ∧ m3.obj 0 = { c := [1, 2], lock := none } :=
  ⟨rfl, _, rfl, rfl,
    ((C11_copy_is_independent 0 1 0
      (Mem.store (Mem.fresh : Mem Nat) 0 { c := [1, 2], lock := none }) (by decide)).2.1
        [(0, Op.push 3)] 0
        (Mem.store (Mem.emit (Mem.store (Mem.fresh : Mem Nat) 0
            { c := [1, 2], lock := none }) (Event.access 0 0)) 1 { c := [1, 2], lock := none })
        _ rfl).1⟩

/-- C17 (one lock per member call): started with the guard of the instance free, each of
`push`, `emplace`, `empty` and `size`, and on a non-empty queue each of `pop`, `front` and
`back`, returns having acquired exactly one guard, its own instance's, and released it: the
guard is free again and no other instance is touched. -/
theorem C17_one_lock_per_call {T Args : Type} (t : Tid) (self : Addr) (x : T)
    (mk : Args → T) (args : Args) (m : Mem T) (h : (m.obj self).lock = none) :
    OneLock self m (ts_queue.push t self x)
    ∧ OneLock self m (ts_queue.emplace t self mk args)
    ∧ OneLock self m (ts_queue.empty t self)
    ∧ OneLock self m (ts_queue.size t self)
    ∧ ((m.obj self).c ≠ [] →
        OneLock self m (ts_queue.pop t self)
        ∧ OneLock self m (ts_queue.front t self)
        ∧ OneLock self m (ts_queue.back t self)) := by
  refine ⟨oneLock_of_store self m _ _ _ _ (push_spec t self x m h) rfl rfl,
    oneLock_of_store self m _ _ _ _ (emplace_spec t self mk args m h) rfl rfl,
    oneLock_of_obj_eq self m _ _ _ h (empty_spec t self m h) rfl rfl,
    oneLock_of_obj_eq self m _ _ _ h (size_spec t self m h) rfl rfl, ?_⟩
  intro hne
  cases hc : (m.obj self).c with
  | nil => exact absurd hc hne
  | cons y rest =>
    have hb : Container.back (m.obj self).c = some ((y :: rest).getLast (by simp)) := by
      rw [hc]; exact List.getLast?_eq_getLast _ _
    exact ⟨oneLock_of_store self m _ _ _ _ (pop_spec t self m y rest h hc) rfl rfl,
      oneLock_of_obj_eq self m _ _ _ h (front_spec t self m y rest h hc) rfl rfl,
      oneLock_of_obj_eq self m _ _ _ h (back_spec t self m _ h hb) rfl rfl⟩

/-- C17 at a concrete input: thread 0 calls `pop()` on the queue `[1, 2]` at address 0. -/
theorem C17_one_lock_per_call_witness :
    OneLock 0 (Mem.store (Mem.fresh : Mem Nat) 0 { c := [1, 2], lock := none })
      (ts_queue.pop 0 0) :=
  ((C17_one_lock_per_call 0 0 (5 : Nat) (fun n : Nat => n) 6
    (Mem.store (Mem.fresh : Mem Nat) 0 { c := [1, 2], lock := none }) rfl).2.2.2.2
      (by simp [Mem.store])).1

/-- C19 (self-comparison), evaluated on the code: for every queue `q` whose guard is free, each
of `q == q`, `q != q`, `q < q`, `q <= q`, `q > q` and `q >= q` locks the guard of `q` and then
locks it again, which a thread that owns a `std::mutex` must not do: none returns a value. -/
theorem C19_self_comparison {T : Type} [BEq T] (lt : T → T → Bool) (t : Tid) (q : Addr)
    (m : Mem T) (h : (m.obj q).lock = none) :
    operator_eq t q q m = Outcome.relock
    ∧ operator_ne t q q m = Outcome.relock
    ∧ operator_lt lt t q q m = Outcome.relock
    ∧ operator_le lt t q q m = Outcome.relock
    ∧ operator_gt lt t q q m = Outcome.relock
    ∧ operator_ge lt t q q m = Outcome.relock :=
  ⟨LOCK_GUARDS_self t q _ m h, LOCK_GUARDS_self t q _ m h, LOCK_GUARDS_self t q _ m h,
    LOCK_GUARDS_self t q _ m h, LOCK_GUARDS_self t q _ m h, LOCK_GUARDS_self t q _ m h⟩

/-- C19 at a concrete input: thread 0 evaluates `q == q` for the queue `[1]` at address 0. -/
theorem C19_self_comparison_witness :
    operator_eq 0 0 0 (Mem.store (Mem.fresh : Mem Nat) 0 { c := [1], lock := none })
      = Outcome.relock :=
  (C19_self_comparison (fun a b => decide (a < b)) 0 0
    (Mem.store (Mem.fresh : Mem Nat) 0 { c := [1], lock := none }) rfl).1

/-- C12 (emplace as push), evaluated on the code: for a backing store type that declares
`emplace_back`, `emplace(args...)` is the call `push(T(args...))`: with the guard free it
returns, `size()` grows by one and the new element is at the back. For the default backing
store `std::queue<T>`, which declares no `emplace_back`, `emplace` cannot be instantiated:
there is no call. -/
theorem C12_emplace_as_push {T Args : Type} (t : Tid) (self : Addr) (mk : Args → T)
    (args : Args) (m : Mem T) (h : (m.obj self).lock = none) :
    (∀ declares : Member → Bool, declares Member.emplace_back = true →
        ts_queue.emplace_for declares t self mk args = some (ts_queue.push t self (mk args)))
    ∧ (∃ m1 n, ts_queue.emplace t self mk args m = Outcome.ok ((), m1)
        ∧ (ts_queue.size t self m).value = some n
        ∧ (ts_queue.size t self m1).value = some (n + 1)
        ∧ (ts_queue.back t self m1).value = some (mk args)
        ∧ (m1.obj self).c = (m.obj self).c ++ [mk args])
    ∧ ts_queue.emplace_for std_queue_declares t self mk args = none := by
  refine ⟨?_, ⟨_, (m.obj self).c.length, emplace_spec t self mk args m h, ?_, ?_, ?_, ?_⟩, ?_⟩
  · intro declares hd
    simp only [ts_queue.emplace_for, hd, if_true]
    rfl
  · rw [size_value]; simp [h]
  · rw [size_value]; simp
  · rw [back_value]; simp
  · simp
  · rfl

/-- C12 at a concrete input: thread 0 calls `emplace(3, 4)` on the queue `[1]` at address 0 of
pairs of numbers, on a backing store that has `emplace_back`. -/
theorem C12_emplace_as_push_witness :
    ∃ m1 n, ts_queue.emplace 0 0 (fun p : Nat × Nat => p) (3, 4)
          (Mem.store Mem.fresh 0 { c := [(1, 2)], lock := none }) = Outcome.ok ((), m1)
        ∧ (ts_queue.size 0 0
            (Mem.store (Mem.fresh : Mem (Nat × Nat)) 0 { c := [(1, 2)], lock := none })).value
          = some n
        ∧ (ts_queue.size 0 0 m1).value = some (n + 1)
        ∧ (ts_queue.back 0 0 m1).value = some (3, 4)
        ∧ (m1.obj 0).c = [(1, 2)] ++ [(3, 4)] :=
  (C12_emplace_as_push 0 0 (fun p : Nat × Nat => p) (3, 4)
    (Mem.store Mem.fresh 0 { c := [(1, 2)], lock := none }) rfl).2.1

/-- C13 (lock discipline), evaluated on the code: with the guards free, every storage access
of `push`, `emplace`, `empty`, `size`, of `pop`, `front` and `back` on a non-empty queue, and
of `operator==` and `operator<` on two distinct instances, is made under the guard of
the instance accessed; the copy constructor and the move constructor return having accessed
the storage of the source `q` without holding its guard. -/
theorem C13_lock_discipline {T Args : Type} [BEq T] (lt : T → T → Bool) (t : Tid)
    (self q : Addr) (x : T) (mk : Args → T) (args : Args) (residue : Container T) (m : Mem T)
    (h : (m.obj self).lock = none) (hq : (m.obj q).lock = none) (hne : self ≠ q) :
    Discipline true m (ts_queue.push t self x)
    ∧ Discipline true m (ts_queue.emplace t self mk args)
    ∧ Discipline true m (ts_queue.empty t self)
    ∧ Discipline true m (ts_queue.size t self)
    ∧ ((m.obj self).c ≠ [] →
        Discipline true m (ts_queue.pop t self)
        ∧ Discipline true m (ts_queue.front t self)
        ∧ Discipline true m (ts_queue.back t self))
    ∧ Discipline true m (operator_eq t self q)
    ∧ Discipline true m (operator_lt lt t self q)
    ∧ Discipline false m (ts_queue.ctor_copy t self q)
    ∧ Discipline false m (ts_queue.ctor_move t self q residue) := by
  refine ⟨⟨_, _, _, push_spec t self x m h, rfl, by simp [disciplined]⟩,
    ⟨_, _, _, emplace_spec t self mk args m h, rfl, by simp [disciplined]⟩,
    ⟨_, _, _, empty_spec t self m h, rfl, by simp [disciplined]⟩,
    ⟨_, _, _, size_spec t self m h, rfl, by simp [disciplined]⟩, ?_,
    ⟨_, _, _, operator_eq_spec t self q m hne h hq, rfl, by simp [disciplined]⟩,
    ⟨_, _, _, operator_lt_spec lt t self q m hne h hq, rfl, by simp [disciplined]⟩,
    ⟨(), _, [Event.access t q], rfl, rfl, by simp [disciplined]⟩,
    ⟨(), _, [Event.access t q, Event.access t q], rfl, by simp [Mem.store, Mem.emit],
      by simp [disciplined]⟩⟩
  intro hc0
  cases hc : (m.obj self).c with
  | nil => exact absurd hc hc0
  | cons y rest =>
    have hb : Container.back (m.obj self).c = some ((y :: rest).getLast (by simp)) := by
      rw [hc]; exact List.getLast?_eq_getLast _ _
    exact ⟨⟨_, _, _, pop_spec t self m y rest h hc, rfl, by simp [disciplined]⟩,
      ⟨_, _, _, front_spec t self m y rest h hc, rfl, by simp [disciplined]⟩,
      ⟨_, _, _, back_spec t self m _ h hb, rfl, by simp [disciplined]⟩⟩

/-- C13 at a concrete input: thread 0 copies the queue `[1, 2]` at address 0 to address 1; the
trace of the call is one access to the storage at address 0, with no guard held. -/
theorem C13_lock_discipline_witness :
    Discipline false (Mem.store (Mem.fresh : Mem Nat) 0 { c := [1, 2], lock := none })
      (ts_queue.ctor_copy 0 1 0) :=
  (C13_lock_discipline (fun a b => decide (a < b)) 0 1 0 (5 : Nat) (fun n : Nat => n) 6 []
    (Mem.store (Mem.fresh : Mem Nat) 0 { c := [1, 2], lock := none }) rfl rfl
      (by decide)).2.2.2.2.2.2.2.1

/-- C15 (reciprocal comparisons), evaluated on the code: thread 0 evaluates `A < B`, thread 1
evaluates `B < A` and thread 2 pushes onto `A` and then onto `B`, the guards of the two
distinct queues being free. When thread 0 and then thread 1 have each taken their first step,
thread 0 owns the guard of `A` and asks for the guard of `B`, thread 1 owns the guard of `B`
and asks for the guard of `A`, thread 2 asks for the guard of `A`: no thread can ever take a
step again, and neither comparison returns. -/
theorem C15_reciprocal_comparisons_deadlock {T : Type} (A B : Addr) (u v : T) (m : Mem T)
    (hAB : A ≠ B) (hA : (m.obj A).lock = none) (hB : (m.obj B).lock = none) :
    ∃ cfg, run [0, 1]
        { threads := [{ todo := lt_atoms A B, tmp := [] }, { todo := lt_atoms B A, tmp := [] },
            { todo := push_atoms A u ++ push_atoms B v, tmp := [] }],
          mem := m } = some cfg
      ∧ Deadlock cfg
      ∧ (cfg.mem.obj A).lock = some 0 ∧ (cfg.mem.obj B).lock = some 1
      ∧ cfg.threads.map (fun th => th.todo.head?)
          = [some (Atom.lock B), some (Atom.lock A), some (Atom.lock A)] := by
  have hBA : B ≠ A := fun e => hAB e.symm
  refine ⟨{ threads := [{ todo := (lt_atoms A B).tail, tmp := [] },
              { todo := (lt_atoms B A).tail, tmp := [] },
              { todo := push_atoms A u ++ push_atoms B v, tmp := [] }],
            mem := Mem.emit (Mem.store (Mem.emit (Mem.store m A { m.obj A with lock := some 0 })
              (Event.acquire 0 A)) B { c := (m.obj B).c, lock := some 1 })
              (Event.acquire 1 B) }, ?_, ⟨?_, ?_⟩, ?_, ?_, ?_⟩
  · simp [run, step, lt_atoms, guards_atoms, guard_atoms, Atom.run, Call.bind, mutex_lock,
      Mem.store, Mem.emit, hA, hB, hBA]
  · intro i
    match i with
    | 0 => simp [step, lt_atoms, guards_atoms, guard_atoms, Atom.run, Call.bind, mutex_lock,
        Mem.store, Mem.emit, hBA]
    | 1 => simp [step, lt_atoms, guards_atoms, guard_atoms, Atom.run, Call.bind, mutex_lock,
        Mem.store, Mem.emit, hAB]
    | 2 => simp [step, push_atoms, guard_atoms, Atom.run, Call.bind, mutex_lock, Mem.store,
        Mem.emit, hAB]
    | n + 3 => simp [step]
  · simp [finished, lt_atoms, guards_atoms, guard_atoms]
  · simp [Mem.store, Mem.emit, hAB]
  · simp [Mem.store, Mem.emit]
  · simp [lt_atoms, guards_atoms, guard_atoms, push_atoms]

/-- C15 at a concrete input: the queues at addresses 0 and 1 of a fresh memory. -/
theorem C15_reciprocal_comparisons_deadlock_witness :
    ∃ cfg, run [0, 1]
        { threads := [{ todo := lt_atoms 0 1, tmp := [] }, { todo := lt_atoms 1 0, tmp := [] },
            { todo := push_atoms 0 7 ++ push_atoms 1 8, tmp := [] }],
          mem := (Mem.fresh : Mem Nat) } = some cfg
      ∧ Deadlock cfg
      ∧ (cfg.mem.obj 0).lock = some 0 ∧ (cfg.mem.obj 1).lock = some 1
      ∧ cfg.threads.map (fun th => th.todo.head?)
          = [some (Atom.lock 1), some (Atom.lock 0), some (Atom.lock 0)] :=
  C15_reciprocal_comparisons_deadlock 0 1 7 8 Mem.fresh (by decide) rfl rfl

/-- C14 (lock order): a thread that runs any of the six comparisons of `x` with `y`, among any
other threads and from any memory, acquires at every moment of every execution nothing, or the
guard of `x`, or the guard of `x` and then the guard of `y`: never the guard of the right
operand before that of the left. The guard that the operator called by `!=`, `>`, `<=` or
`>=` asks for is one the thread holds, and is never acquired. -/
theorem C14_lock_order {T : Type} (x y : Addr) (P : List (Atom T))
    (hP : P ∈ [eq_atoms x y, lt_atoms x y, ne_atoms x y, gt_atoms x y, le_atoms x y,
      ge_atoms x y])
    (i : Tid) (tmp : Container T) (cfg0 : Config T)
    (h0 : cfg0.threads[i]? = some { todo := P, tmp := tmp })
    (s : List Tid) (cfg : Config T) (hrun : run s cfg0 = some cfg) :
    ∃ es, cfg.mem.log = cfg0.mem.log ++ es
      ∧ (acquired_by i es = [] ∨ acquired_by i es = [x] ∨ acquired_by i es = [x, y]) := by
  obtain ⟨R, hR, hshape⟩ := comparison_shape x y P hP
  have hinv0 : OrderInv i x y cfg0.mem.log cfg0 :=
    ⟨_, [], h0, by simp, Or.inl ⟨rfl, R, hR, hshape⟩⟩
  obtain ⟨_, es, _, hlog, hcase⟩ := orderInv_run i x y cfg0.mem.log s cfg0 cfg hrun hinv0
  refine ⟨es, hlog, ?_⟩
  rcases hcase with ⟨h, _⟩ | ⟨h, _⟩ | ⟨h, _⟩ | ⟨h, _⟩
  · exact Or.inl h
  · exact Or.inr (Or.inl h)
  · exact Or.inr (Or.inr h)
  · exact Or.inr (Or.inr h)

/-- C14 at a concrete input: thread 0 evaluates `x > y` for the queues at addresses 0 and 1 of
a fresh memory and takes two steps. -/
theorem C14_lock_order_witness :
    ∃ cfg : Config Nat,
      run [0, 0] { threads := [{ todo := gt_atoms 0 1, tmp := [] }], mem := Mem.fresh }
        = some cfg
      ∧ ∃ es, cfg.mem.log = (Mem.fresh : Mem Nat).log ++ es
        ∧ (acquired_by 0 es = [] ∨ acquired_by 0 es = [0] ∨ acquired_by 0 es = [0, 1]) :=
  ⟨_, rfl, C14_lock_order 0 1 (gt_atoms 0 1) (by simp) 0 []
    { threads := [{ todo := gt_atoms 0 1, tmp := [] }], mem := Mem.fresh } rfl [0, 0] _ rfl⟩

/-- C18 (observers are read-only): whenever `empty()`, `size()`, `front()`, `back()` or one of
the six comparison operators returns, the element sequence of every queue is what it was
before the call; with the guards free the four members and `==`, `<` do return, leaving
every instance as it was; and the steps of each of the six comparisons, taken as far as they
go, leave every element sequence as it was. -/
theorem C18_observers_read_only {T : Type} [BEq T] (lt : T → T → Bool) (t : Tid)
    (self x y : Addr) :
    (KeepsStorage (ts_queue.empty t self : Call T Bool)
      ∧ KeepsStorage (ts_queue.size t self : Call T Nat)
      ∧ KeepsStorage (ts_queue.front t self : Call T T)
      ∧ KeepsStorage (ts_queue.back t self : Call T T)
      ∧ KeepsStorage (operator_eq t x y : Call T Bool)
      ∧ KeepsStorage (operator_ne t x y : Call T Bool)
      ∧ KeepsStorage (operator_lt lt t x y)
      ∧ KeepsStorage (operator_le lt t x y)
      ∧ KeepsStorage (operator_gt lt t x y)
      ∧ KeepsStorage (operator_ge lt t x y))
    ∧ (∀ m : Mem T, (m.obj self).lock = none →
        (∃ r m1, ts_queue.empty t self m = Outcome.ok (r, m1) ∧ m1.obj = m.obj)
        ∧ (∃ r m1, ts_queue.size t self m = Outcome.ok (r, m1) ∧ m1.obj = m.obj)
        ∧ ((m.obj self).c ≠ [] →
            (∃ r m1, ts_queue.front t self m = Outcome.ok (r, m1) ∧ m1.obj = m.obj)
            ∧ (∃ r m1, ts_queue.back t self m = Outcome.ok (r, m1) ∧ m1.obj = m.obj)))
    ∧ (∀ m : Mem T, x ≠ y → (m.obj x).lock = none → (m.obj y).lock = none →
        (∃ r m1, operator_eq t x y m = Outcome.ok (r, m1) ∧ m1.obj = m.obj)
        ∧ (∃ r m1, operator_lt lt t x y m = Outcome.ok (r, m1) ∧ m1.obj = m.obj))
    ∧ (∀ P ∈ [eq_atoms x y, lt_atoms x y, ne_atoms x y, gt_atoms x y, le_atoms x y,
          ge_atoms x y],
        ∀ (tmp : Container T) (m : Mem T) (b : Addr),
          ((run_alone t P tmp m).obj b).c = (m.obj b).c) := by
  refine ⟨⟨keeps_empty t self, keeps_size t self, keeps_front t self, keeps_back t self,
    keeps_operator_eq t x y, keeps_operator_ne t x y, keeps_operator_lt lt t x y,
    keeps_operator_le lt t x y, keeps_operator_gt lt t x y, keeps_operator_ge lt t x y⟩,
    ?_, ?_, ?_⟩
  · intro m h
    refine ⟨⟨_, _, empty_spec t self m h, rfl⟩, ⟨_, _, size_spec t self m h, rfl⟩, ?_⟩
    intro hne
    cases hc : (m.obj self).c with
    | nil => exact absurd hc hne
    | cons u rest =>
      have hb : Container.back (m.obj self).c = some ((u :: rest).getLast (by simp)) := by
        rw [hc]; exact List.getLast?_eq_getLast _ _
      exact ⟨⟨_, _, front_spec t self m u rest h hc, rfl⟩, ⟨_, _, back_spec t self m _ h hb, rfl⟩⟩
  · intro m hxy hx hy
    exact ⟨⟨_, _, operator_eq_spec t x y m hxy hx hy, rfl⟩,
      ⟨_, _, operator_lt_spec lt t x y m hxy hx hy, rfl⟩⟩
  · intro P hP tmp m b
    exact run_alone_keeps_storage t P (comparison_no_write x y P hP) tmp m b

/-- C16 (no lost updates): any number of threads push onto one queue whose guard is free,
thread `i` the elements of the `i`-th list of `xss`, their steps interleaved in any order.
Whenever all of them have finished, the queue holds what it held before together with every
pushed element exactly once, and `size()` returns the former size plus the number of pushes;
and from every moment of every execution the threads can all finish. -/
theorem C16_no_lost_updates {T : Type} (a : Addr) (xss : List (List T)) (m : Mem T)
    (h : (m.obj a).lock = none) (s : List Tid) (cfg : Config T)
    (hrun : run s
      { threads := xss.map fun xs => { todo := push_each_atoms a xs, tmp := [] }, mem := m }
      = some cfg) :
    (finished cfg = true →
        List.Perm (cfg.mem.obj a).c ((m.obj a).c ++ xss.flatten)
        ∧ ∀ t, (ts_queue.size t a cfg.mem).value
            = some ((m.obj a).c.length + (xss.map List.length).sum))
    ∧ (∃ s1 cfg1, run s1 cfg = some cfg1 ∧ finished cfg1 = true) := by
  have hinv := pushInv_run a _ s _ cfg hrun (pushInv_start a xss m h)
  refine ⟨?_, pushInv_completes a _ _ cfg hinv rfl⟩
  intro hf
  obtain ⟨hfree, hperm⟩ := pushInv_finished hinv hf
  refine ⟨hperm, ?_⟩
  intro t
  rw [size_ok t a cfg.mem hfree, hperm.length_eq]
  simp [List.length_flatten]

/-- C16 at a concrete input: thread 0 pushes 1 and 2, thread 1 pushes 3, onto the empty queue
at address 0; thread 1 pushes between the two calls of thread 0. -/
theorem C16_no_lost_updates_witness :
    ∃ cfg : Config Nat,
      run [0, 0, 0, 0, 1, 1, 1, 1, 0, 0, 0, 0]
        { threads := [[1, 2], [3]].map fun xs => { todo := push_each_atoms 0 xs, tmp := [] },
          mem := Mem.fresh } = some cfg
      ∧ finished cfg = true
      ∧ (cfg.mem.obj 0).c = [1, 3, 2]
      ∧ ((finished cfg = true →
          List.Perm (cfg.mem.obj 0).c (((Mem.fresh : Mem Nat).obj 0).c ++ [[1, 2], [3]].flatten)
          ∧ ∀ t, (ts_queue.size t 0 cfg.mem).value
              = some (((Mem.fresh : Mem Nat).obj 0).c.length
                  + ([[1, 2], [3]].map List.length).sum))
        ∧ (∃ s1 cfg1, run s1 cfg = some cfg1 ∧ finished cfg1 = true)) :=
  ⟨_, rfl, rfl, rfl,
    C16_no_lost_updates 0 [[1, 2], [3]] Mem.fresh rfl [0, 0, 0, 0, 1, 1, 1, 1, 0, 0, 0, 0] _ rfl⟩

end am.tsq
